import Mathlib

/-!
Verification of the Rib grammar-to-AST front end of the golem repository.

The development shallowly embeds the worker-invocation production
(src/golem-rib/src/parser/worker_function_invoke.rs) over an executable
parser model.  The surrounding sub-parsers (identifier, rib_expr, the
program-level statement grammar) are not part of the given sources and are
modelled from the specification, as noted on each definition.  The trivial
authorization value type DefaultNamespace (src/golem-service-base/src/auth.rs)
is embedded directly.
-/

set_option maxHeartbeats 1600000

namespace Golem

/-! ## Source positions and spans -/

/-- Source span: a (start-position, end-position) pair over the input text. -/
structure SourceSpan where
  startPos : Nat
  endPos : Nat
deriving Repr, DecidableEq

/-- Generic type parameter: a single opaque string-valued type tag. -/
structure GenericTypeParameter where
  value : String
deriving Repr, DecidableEq

/-- Call type tag of a call expression.  `function` corresponds to
`CallType::Function { function_name }`; `otherKind` stands for the other
invocation kinds of the open invocation family that the worker-invocation
rewrite does not accept. -/
inductive CallType where
  | function (functionName : String)
  | otherKind (tag : String)
deriving Repr, DecidableEq

/-- The Rib AST (`Expr`), as described by the data model of the spec.
Every node carries a source span. -/
inductive Expr where
  | identifier (name : String) (scope : Option String) (span : SourceSpan)
  | literal (value : String) (span : SourceSpan)
  | letBinding (name : String) (bound : Expr) (typeHint : Option String) (span : SourceSpan)
  | exprBlock (exprs : List Expr) (span : SourceSpan)
  | call (callType : CallType) (genericTypeParameter : Option GenericTypeParameter)
      (args : List Expr) (span : SourceSpan)
  | invokeWorkerFunction (workerExpr : Expr) (functionName : String)
      (genericTypeParameter : Option GenericTypeParameter)
      (args : List Expr) (span : SourceSpan)

/-- Re-attach a source span to a node (`Expr::with_source_span`): a pure,
value-producing operation that replaces the node's span. -/
def Expr.withSourceSpan : Expr → SourceSpan → Expr
  | .identifier n sc _, sp => .identifier n sc sp
  | .literal v _, sp => .literal v sp
  | .letBinding n b th _, sp => .letBinding n b th sp
  | .exprBlock es _, sp => .exprBlock es sp
  | .call ct g args _, sp => .call ct g args sp
  | .invokeWorkerFunction w fn g args _, sp => .invokeWorkerFunction w fn g args sp

/-- The source span carried by a node. -/
def Expr.spanOf : Expr → SourceSpan
  | .identifier _ _ sp => sp
  | .literal _ sp => sp
  | .letBinding _ _ _ sp => sp
  | .exprBlock _ sp => sp
  | .call _ _ _ sp => sp
  | .invokeWorkerFunction _ _ _ _ sp => sp

/-- The default (dummy) span used by the smart constructors. -/
def dummySpan : SourceSpan := ⟨0, 0⟩

mutual
/-- Erase all source spans of a node (the Rust `PartialEq` on `Expr`
disregards spans; comparisons modulo spans are made through this map). -/
def Expr.stripSpans : Expr → Expr
  | .identifier n sc _ => .identifier n sc dummySpan
  | .literal v _ => .literal v dummySpan
  | .letBinding n b th _ => .letBinding n (Expr.stripSpans b) th dummySpan
  | .exprBlock es _ => .exprBlock (Expr.stripSpansList es) dummySpan
  | .call ct g args _ => .call ct g (Expr.stripSpansList args) dummySpan
  | .invokeWorkerFunction w fn g args _ =>
      .invokeWorkerFunction (Expr.stripSpans w) fn g (Expr.stripSpansList args) dummySpan

/-- Pointwise span erasure on a list of nodes. -/
def Expr.stripSpansList : List Expr → List Expr
  | [] => []
  | e :: es => Expr.stripSpans e :: Expr.stripSpansList es
end

/-- Smart constructor mirroring `Expr::identifier_global(name, None)`:
an identifier with unresolved (global) scope and a dummy span. -/
def Expr.identifierGlobal (name : String) : Expr :=
  .identifier name none dummySpan

/-- Smart constructor mirroring `Expr::invoke_worker_function`: builds the
node with a dummy span (the caller re-attaches the real one). -/
def Expr.invokeWorkerFunctionC (worker : Expr) (functionName : String)
    (genericTypeParameter : Option GenericTypeParameter) (args : List Expr) : Expr :=
  .invokeWorkerFunction worker functionName genericTypeParameter args dummySpan

/-! ## Parser model

The input stream is a list of characters together with the number of
characters already consumed (the current position).  A parser either
succeeds with a value and the residual stream, fails with a structured
error (position plus a list of messages, mirroring combine's error value
to which `.message(..)` appends), or signals fuel exhaustion — the marker
used by the fuel-indexed embedding of the recursive grammar, proved
unreachable for sufficient fuel below. -/

/-- Position-tracked input stream: residual input and current position. -/
structure ParseState where
  input : List Char
  pos : Nat
deriving Repr, DecidableEq

/-- Structured parse error: a position and the accumulated messages. -/
structure ParseErr where
  pos : Nat
  messages : List String
deriving Repr, DecidableEq

/-- Outcome of running a parser. -/
inductive PResult (α : Type) where
  | ok (value : α) (rest : ParseState)
  | err (e : ParseErr)
  | outOfFuel
deriving Repr

/-- A parser consumes a prefix of the stream. -/
def Parser (α : Type) : Type := ParseState → PResult α

/-- Combinator mirroring combine's `.message(msg)`: on any failure of the
inner parser the message is added to the error; successes pass through. -/
def pmessage {α : Type} (p : Parser α) (msg : String) : Parser α := fun s =>
  match p s with
  | .err e => .err ⟨e.pos, e.messages ++ [msg]⟩
  | r => r

/-- Alternation: try `p`; if it fails, try `q` from the same state. -/
def porelse {α : Type} (p q : Parser α) : Parser α := fun s =>
  match p s with
  | .err _ => q s
  | r => r

/-- Split a list at the first character that falsifies `p`:
returns the maximal taken prefix and the remainder. -/
def spanWhile (p : Char → Bool) : List Char → List Char × List Char
  | [] => ([], [])
  | c :: r =>
    if p c then
      let pr := spanWhile p r
      (c :: pr.1, pr.2)
    else ([], c :: r)

/-- Whitespace characters skipped between tokens. -/
def isSpaceChar (c : Char) : Bool :=
  c == ' ' || c == '\n' || c == '\t' || c == '\r'

/-- Modelled from the spec: the whitespace-skipping sub-parser (`spaces()`),
a pure cursor advance that always succeeds. -/
def skipSpaces (s : ParseState) : ParseState :=
  let pr := spanWhile isSpaceChar s.input
  ⟨pr.2, s.pos + pr.1.length⟩

/-- Characters that may start an identifier. -/
def isIdentStart (c : Char) : Bool := c.isAlpha || c == '_'

/-- Characters that may continue an identifier (scripting-language names,
dashes included as in `function-name`). -/
def isIdentChar (c : Char) : Bool := c.isAlphanum || c == '-' || c == '_'

/-- Modelled from the spec: the name-recognizing core of the `identifier`
sub-parser (and of the function-name collaborator): a maximal run of
identifier characters, failing with "expected identifier" otherwise. -/
def identName : Parser String := fun s =>
  match s.input with
  | c :: r =>
    if isIdentStart c then
      let pr := spanWhile isIdentChar r
      .ok (String.mk (c :: pr.1)) ⟨pr.2, s.pos + 1 + pr.1.length⟩
    else .err ⟨s.pos, ["expected identifier"]⟩
  | [] => .err ⟨s.pos, ["expected identifier"]⟩

/-- Modelled from the spec: the `identifier()` sub-parser, producing an
`Expr::Identifier` with unresolved scope and a span equal to the
identifier's extent. -/
def identifier : Parser Expr := fun s =>
  match identName s with
  | .ok n s1 => .ok (.identifier n none ⟨s.pos, s1.pos⟩) s1
  | .err er => .err er
  | .outOfFuel => .outOfFuel

/-- Modelled from the spec: the string-literal atom, a double-quoted run of
characters producing `Expr::Literal`. -/
def literalP : Parser Expr := fun s =>
  match s.input with
  | c :: r =>
    if c = '"' then
      let pr := spanWhile (fun x => !(x == '"')) r
      match pr.2 with
      | c2 :: r2 =>
        if c2 = '"' then
          .ok (.literal (String.mk pr.1) ⟨s.pos, s.pos + pr.1.length + 2⟩)
            ⟨r2, s.pos + pr.1.length + 2⟩
        else .err ⟨s.pos, ["unterminated string literal"]⟩
      | [] => .err ⟨s.pos, ["unterminated string literal"]⟩
    else .err ⟨s.pos, ["expected string literal"]⟩
  | [] => .err ⟨s.pos, ["expected string literal"]⟩

/-- Modelled from the spec: the optional generic type parameter
`[` opaque-text `]` attached to a call. -/
def typeParamP : Parser GenericTypeParameter := fun s =>
  match s.input with
  | c :: r =>
    if c = '[' then
      let pr := spanWhile (fun x => !(x == ']')) r
      match pr.2 with
      | c2 :: r2 =>
        if c2 = ']' then
          if pr.1.isEmpty then .err ⟨s.pos, ["empty type parameter"]⟩
          else .ok ⟨String.mk pr.1⟩ ⟨r2, s.pos + pr.1.length + 2⟩
        else .err ⟨s.pos, ["unterminated type parameter"]⟩
      | [] => .err ⟨s.pos, ["unterminated type parameter"]⟩
    else .err ⟨s.pos, ["expected type parameter"]⟩
  | [] => .err ⟨s.pos, ["expected type parameter"]⟩

/-- Make a parser optional: failure consumes nothing and yields `none`. -/
def poption {α : Type} (p : Parser α) : Parser (Option α) := fun s =>
  match p s with
  | .ok a s1 => .ok (some a) s1
  | .err _ => .ok none s
  | .outOfFuel => .outOfFuel

/-- Modelled from the spec: the comma-separated argument list of a call,
each argument a full recursive expression; the loop fuel bounds the number
of iterations and is supplied from the residual input length. -/
def argsLoop (ribE : Parser Expr) : Nat → Parser (List Expr)
  | 0 => fun _ => .outOfFuel
  | n + 1 => fun s =>
    match ribE s with
    | .ok e s1 =>
      let s2 := skipSpaces s1
      match s2.input with
      | c :: r =>
        if c = ',' then
          let s3 := skipSpaces ⟨r, s2.pos + 1⟩
          match argsLoop ribE n s3 with
          | .ok es s4 => .ok (e :: es) s4
          | .err er => .err er
          | .outOfFuel => .outOfFuel
        else .ok [e] s2
      | [] => .ok [e] s2
    | .err er => .err er
    | .outOfFuel => .outOfFuel

/-- Modelled from the spec: the call-expression production
`name [type-param]? ( args )` yielding
`Expr::Call { call_type: Function, generic_type_parameter, args, span }`
with a span covering the full call text. -/
def callCore (ribE : Parser Expr) : Parser Expr := fun s =>
  match identName s with
  | .ok name s1 =>
    match poption typeParamP s1 with
    | .ok g s2 =>
      match s2.input with
      | c :: r =>
        if c = '(' then
          let s3 := skipSpaces ⟨r, s2.pos + 1⟩
          if s3.input.head? = some ')' then
            .ok (.call (.function name) g [] ⟨s.pos, s3.pos + 1⟩) ⟨s3.input.tail, s3.pos + 1⟩
          else
            match argsLoop ribE (s3.input.length + 1) s3 with
            | .ok args s4 =>
              if s4.input.head? = some ')' then
                .ok (.call (.function name) g args ⟨s.pos, s4.pos + 1⟩)
                  ⟨s4.input.tail, s4.pos + 1⟩
              else .err ⟨s4.pos, ["expected closing parenthesis"]⟩
            | .err er => .err er
            | .outOfFuel => .outOfFuel
        else .err ⟨s2.pos, ["expected argument list"]⟩
      | [] => .err ⟨s2.pos, ["expected argument list"]⟩
    | .err er => .err er
    | .outOfFuel => .outOfFuel
  | .err er => .err er
  | .outOfFuel => .outOfFuel

/-- Modelled from the spec: the `let name = expr` binding production (no
type annotation is modelled); requires at least one whitespace character
after the keyword. -/
def letCore (ribE : Parser Expr) : Parser Expr := fun s =>
  match s.input with
  | c1 :: c2 :: c3 :: c4 :: r =>
    if (c1 = 'l' ∧ c2 = 'e' ∧ c3 = 't') ∧ isSpaceChar c4 = true then
      let s1 := skipSpaces ⟨c4 :: r, s.pos + 3⟩
      match identName s1 with
      | .ok name s2 =>
        let s3 := skipSpaces s2
        match s3.input with
        | c :: r3 =>
          if c = '=' then
            let s4 := skipSpaces ⟨r3, s3.pos + 1⟩
            match ribE s4 with
            | .ok b s5 => .ok (.letBinding name b none ⟨s.pos, s5.pos⟩) s5
            | .err er => .err er
            | .outOfFuel => .outOfFuel
          else .err ⟨s3.pos, ["expected equals sign"]⟩
        | [] => .err ⟨s3.pos, ["expected equals sign"]⟩
      | .err er => .err er
      | .outOfFuel => .outOfFuel
    else .err ⟨s.pos, ["expected let binding"]⟩
  | _ => .err ⟨s.pos, ["expected let binding"]⟩

/-- The sequenced head of the worker-invocation production: the tuple
`(identifier().skip(spaces()), char('.'))` of the source, yielding the
worker-variable node and the state just after the dot. -/
def invokeHead : Parser Expr := fun s =>
  match identifier s with
  | .ok workerVariable s1 =>
    let s2 := skipSpaces s1
    match s2.input with
    | c :: r => if c = '.' then .ok workerVariable ⟨r, s2.pos + 1⟩
                else .err ⟨s2.pos, ["expected dot"]⟩
    | [] => .err ⟨s2.pos, ["expected dot"]⟩
  | .err er => .err er
  | .outOfFuel => .outOfFuel

/-- Embedding of `worker_function_invoke`
(src/golem-rib/src/parser/worker_function_invoke.rs, lines 18-42),
parameterized by the `rib_expr()` sub-parser: parse
`identifier().skip(spaces())`, `char('.')`, then `rib_expr()`; `and_then`
requires the right-hand result to be a `Call` with `CallType::Function`,
rebuilds it as `Expr::invoke_worker_function(..)` with the call's source
span re-attached to both the worker variable and the new node, and fails
with "Invalid function call" otherwise; the whole production is wrapped in
`.message("Invalid function call")`. -/
def workerInvokeCore (ribE : Parser Expr) : Parser Expr :=
  pmessage (fun s =>
    match invokeHead s with
    | .ok workerVariable s1 =>
      match ribE s1 with
      | .ok c s2 =>
        match c with
        | .call (.function functionName) genericTypeParameter args sourceSpan =>
            .ok ((Expr.invokeWorkerFunctionC (workerVariable.withSourceSpan sourceSpan)
                    functionName genericTypeParameter args).withSourceSpan sourceSpan) s2
        | _ => .err ⟨s2.pos, ["Invalid function call"]⟩
      | .err er => .err er
      | .outOfFuel => .outOfFuel
    | .err er => .err er
    | .outOfFuel => .outOfFuel)
    "Invalid function call"

/-- Modelled from the spec: the fuel-indexed recursive expression grammar
`rib_expr()` — alternation of the let binding, the worker-invocation
production, the call production, string literals and identifiers; fuel
decreases on every recursive descent. -/
def ribExprFuel : Nat → Parser Expr
  | 0 => fun _ => .outOfFuel
  | fuel + 1 => fun s =>
    porelse (letCore (ribExprFuel fuel))
      (porelse (workerInvokeCore (ribExprFuel fuel))
        (porelse (callCore (ribExprFuel fuel))
          (porelse literalP identifier))) s

/-- Modelled from the spec: the `rib_expr()` entry point, self-fueled with
one more unit of fuel than there are characters of residual input. -/
def ribExpr : Parser Expr := fun s => ribExprFuel (s.input.length + 1) s

/-- The `worker_function_invoke()` production with the real `rib_expr()`
sub-parser plugged in. -/
def workerFunctionInvoke : Parser Expr := workerInvokeCore ribExpr

/-- Modelled from the spec: the statement sequence of a top-level program,
statements separated by semicolons. -/
def stmtsLoop (ribE : Parser Expr) : Nat → Parser (List Expr)
  | 0 => fun _ => .outOfFuel
  | n + 1 => fun s =>
    match ribE s with
    | .ok e s1 =>
      let s2 := skipSpaces s1
      match s2.input with
      | c :: r =>
        if c = ';' then
          let s3 := skipSpaces ⟨r, s2.pos + 1⟩
          match stmtsLoop ribE n s3 with
          | .ok es s4 => .ok (e :: es) s4
          | .err er => .err er
          | .outOfFuel => .outOfFuel
        else .ok [e] s2
      | [] => .ok [e] s2
    | .err er => .err er
    | .outOfFuel => .outOfFuel

/-- Modelled from the spec: a top-level program — a sequence of statements
combined into a `Block` when more than one statement is present, a
single-statement program being returned unwrapped. -/
def program : Parser Expr := fun s =>
  let s0 := skipSpaces s
  match stmtsLoop ribExpr (s0.input.length + 1) s0 with
  | .ok [e] s1 => .ok e s1
  | .ok es s1 => .ok (.exprBlock es ⟨s.pos, s1.pos⟩) s1
  | .err er => .err er
  | .outOfFuel => .outOfFuel

/-- Modelled from the spec: `Expr::from_text` — run the program parser on
the whole input and require that nothing but the parsed program is
present. -/
def fromText (text : String) : Except ParseErr Expr :=
  match program ⟨text.toList, 0⟩ with
  | .ok e s1 =>
      if s1.input.isEmpty then .ok e
      else .error ⟨s1.pos, ["unexpected trailing input"]⟩
  | .err er => .error er
  | .outOfFuel => .error ⟨0, ["fuel exhausted"]⟩

/-- Successful `fromText` outcome modulo source spans. -/
def fromTextView (text : String) : Option Expr :=
  match fromText text with
  | .ok e => some e.stripSpans
  | .error _ => none

/-- View of a parse outcome modulo source spans, paired with the residual
input; failures collapse to `none`. -/
def resultView : PResult Expr → Option (Expr × List Char)
  | .ok e s => some (e.stripSpans, s.input)
  | _ => none

/-- Does the node match `Expr::Call { call_type: CallType::Function, .. }`,
the shape the worker-invocation rewrite accepts? -/
def isFunctionCall : Expr → Bool
  | .call (.function _) _ _ _ => true
  | _ => false

/-- Is the node an identifier-class expression? -/
def isIdentifierExpr : Expr → Bool
  | .identifier _ _ _ => true
  | _ => false

mutual
/-- Structural invariant of parsed trees: every `InvokeWorkerFunction`
node's worker-reference position holds an identifier-class expression. -/
def workerRefsOk : Expr → Bool
  | .identifier _ _ _ => true
  | .literal _ _ => true
  | .letBinding _ b _ _ => workerRefsOk b
  | .exprBlock es _ => workerRefsOkList es
  | .call _ _ args _ => workerRefsOkList args
  | .invokeWorkerFunction w _ _ args _ => isIdentifierExpr w && workerRefsOkList args

/-- Pointwise `workerRefsOk` over a list of nodes. -/
def workerRefsOkList : List Expr → Bool
  | [] => true
  | e :: es => workerRefsOk e && workerRefsOkList es
end

/-- A valid identifier as a character list: nonempty, begins with an
identifier-start character, continues with identifier characters. -/
def ValidIdentL : List Char → Prop
  | [] => False
  | c :: r => isIdentStart c = true ∧ ∀ x ∈ r, isIdentChar x = true

/-- A valid generic-type-parameter text: nonempty and free of the closing
bracket. -/
def ValidTypeParamL (t : List Char) : Prop :=
  t ≠ [] ∧ ∀ x ∈ t, (x == ']') = false

instance instDecValidIdentL : (l : List Char) → Decidable (ValidIdentL l)
  | [] => isFalse id
  | c :: r =>
      inferInstanceAs (Decidable (isIdentStart c = true ∧ ∀ x ∈ r, isIdentChar x = true))

instance instDecValidTypeParamL (t : List Char) : Decidable (ValidTypeParamL t) :=
  inferInstanceAs (Decidable (t ≠ [] ∧ ∀ x ∈ t, (x == ']') = false))

/-- Join argument texts with commas (the text `a1,...,an`). -/
def commaJoin : List (List Char) → List Char
  | [] => []
  | [a] => a
  | a :: rest => a ++ ',' :: commaJoin rest

/-- The identifier nodes an argument list of identifier texts parses to,
with their spans, the first argument starting at position `p`. -/
def argNodes : List (List Char) → Nat → List Expr
  | [], _ => []
  | a :: rest, p =>
      .identifier (String.mk a) none ⟨p, p + a.length⟩ :: argNodes rest (p + a.length + 1)

/-- The next character (if any) stops an atom: it can neither continue an
identifier nor start whitespace, a dot, an argument list or a type
parameter list. -/
def AtomStop (l : List Char) : Prop :=
  ∀ c, l.head? = some c →
    isIdentChar c = false ∧ isSpaceChar c = false ∧ c ≠ '.' ∧ c ≠ '(' ∧ c ≠ '['

/-- Shift a span by `d` positions. -/
def shiftSpan (d : Nat) (sp : SourceSpan) : SourceSpan :=
  ⟨sp.startPos + d, sp.endPos + d⟩

mutual
/-- Shift every span of a node by `d` positions. -/
def shiftExpr (d : Nat) : Expr → Expr
  | .identifier n sc sp => .identifier n sc (shiftSpan d sp)
  | .literal v sp => .literal v (shiftSpan d sp)
  | .letBinding n b th sp => .letBinding n (shiftExpr d b) th (shiftSpan d sp)
  | .exprBlock es sp => .exprBlock (shiftList d es) (shiftSpan d sp)
  | .call ct g args sp => .call ct g (shiftList d args) (shiftSpan d sp)
  | .invokeWorkerFunction w fn g args sp =>
      .invokeWorkerFunction (shiftExpr d w) fn g (shiftList d args) (shiftSpan d sp)

/-- Pointwise span shift over a list of nodes. -/
def shiftList (d : Nat) : List Expr → List Expr
  | [] => []
  | e :: es => shiftExpr d e :: shiftList d es
end

/-- Shift the position of a state by `d`. -/
def shiftState (d : Nat) (s : ParseState) : ParseState :=
  ⟨s.input, s.pos + d⟩

/-- Shift a parse outcome by `d`: the value through `f`, positions of the
residual state and of errors additively. -/
def shiftResultWith {α : Type} (f : α → α) (d : Nat) : PResult α → PResult α
  | .ok a s => .ok (f a) (shiftState d s)
  | .err e => .err ⟨e.pos + d, e.messages⟩
  | .outOfFuel => .outOfFuel

/-- The source text of an optional generic type parameter: nothing, or
`[` the text `]`. -/
def typeParamText : Option (List Char) → List Char
  | none => []
  | some t => '[' :: t ++ [']']

/-- The parsed value of an optional generic type parameter. -/
def typeParamVal : Option (List Char) → Option GenericTypeParameter
  | none => none
  | some t => some ⟨String.mk t⟩

/-- Validity of an optional generic-type-parameter text. -/
def ValidTypeParamO : Option (List Char) → Prop
  | none => True
  | some t => ValidTypeParamL t

instance instDecValidTypeParamO : (tp : Option (List Char)) → Decidable (ValidTypeParamO tp)
  | none => isTrue trivial
  | some t => inferInstanceAs (Decidable (ValidTypeParamL t))

/-! ## The authorization value type (src/golem-service-base/src/auth.rs) -/

/-- The one-variant default namespace type `DefaultNamespace`. -/
inductive DefaultNamespace where
  | mk
deriving Repr, DecidableEq

/-- `Display for DefaultNamespace`: always renders as "default". -/
def DefaultNamespace.toText : DefaultNamespace → String
  | .mk => "default"

/-- `TryFrom<String> for DefaultNamespace`: succeeds exactly on "default",
otherwise fails with the message "Failed to parse empty namespace". -/
def DefaultNamespace.tryFrom (value : String) : Except String DefaultNamespace :=
  if value = "default" then .ok .mk
  else .error "Failed to parse empty namespace"

/-! ## Basic lemmas about the lexical layer -/

theorem spanWhile_append (p : Char → Bool) (xs ys : List Char)
    (hxs : ∀ x ∈ xs, p x = true)
    (hys : ∀ c, ys.head? = some c → p c = false) :
    spanWhile p (xs ++ ys) = (xs, ys) := by
  induction xs with
  | nil =>
    cases ys with
    | nil => rfl
    | cons c r =>
      have hc : p c = false := hys c rfl
      simp [spanWhile, hc]
  | cons x xs ih =>
    have hx : p x = true := hxs x (List.mem_cons_self x xs)
    have hrest := ih (fun a ha => hxs a (List.mem_cons_of_mem x ha))
    simp [spanWhile, hx, hrest]

theorem spanWhile_eq_append (p : Char → Bool) (l : List Char) :
    (spanWhile p l).1 ++ (spanWhile p l).2 = l := by
  induction l with
  | nil => rfl
  | cons c r ih =>
    by_cases hc : p c = true
    · simp [spanWhile, hc, ih]
    · simp only [Bool.not_eq_true] at hc
      simp [spanWhile, hc]

theorem skipSpaces_noop (s : ParseState)
    (h : ∀ c, s.input.head? = some c → isSpaceChar c = false) :
    skipSpaces s = s := by
  obtain ⟨input, pos⟩ := s
  have := spanWhile_append isSpaceChar [] input (by intro x hx; cases hx) h
  simp at this
  simp [skipSpaces, this]

theorem skipSpaces_run (ws rest : List Char) (p : Nat)
    (hws : ∀ x ∈ ws, isSpaceChar x = true)
    (hrest : ∀ c, rest.head? = some c → isSpaceChar c = false) :
    skipSpaces ⟨ws ++ rest, p⟩ = ⟨rest, p + ws.length⟩ := by
  simp [skipSpaces, spanWhile_append isSpaceChar ws rest hws hrest]

theorem identName_eval (w rest : List Char) (p : Nat)
    (hw : ValidIdentL w)
    (hrest : ∀ c, rest.head? = some c → isIdentChar c = false) :
    identName ⟨w ++ rest, p⟩ = .ok (String.mk w) ⟨rest, p + w.length⟩ := by
  cases w with
  | nil => exact absurd hw id
  | cons c r =>
    obtain ⟨hc, hr⟩ := hw
    simp only [List.cons_append, identName, hc, if_pos]
    rw [spanWhile_append isIdentChar r rest hr hrest]
    simp [Nat.add_comm, Nat.add_assoc, Nat.add_left_comm]

theorem identifier_eval (w rest : List Char) (p : Nat)
    (hw : ValidIdentL w)
    (hrest : ∀ c, rest.head? = some c → isIdentChar c = false) :
    identifier ⟨w ++ rest, p⟩ =
      .ok (.identifier (String.mk w) none ⟨p, p + w.length⟩) ⟨rest, p + w.length⟩ := by
  simp [identifier, identName_eval w rest p hw hrest]

/-! ## Structural lemmas about the worker-invocation production -/

theorem pmessage_err {α : Type} (p : Parser α) (m : String) (s : ParseState)
    (er : ParseErr) (h : pmessage p m s = .err er) : m ∈ er.messages := by
  unfold pmessage at h
  cases hp : p s with
  | ok a s1 => rw [hp] at h; exact absurd h (by simp)
  | err e0 =>
    rw [hp] at h
    cases h
    simp
  | outOfFuel => rw [hp] at h; exact absurd h (by simp)

theorem workerInvokeCore_ok (ribE : Parser Expr) (s : ParseState) (e : Expr)
    (s2 : ParseState) (h : workerInvokeCore ribE s = .ok e s2) :
    ∃ wv s1 fn g args sp,
      invokeHead s = .ok wv s1 ∧
      ribE s1 = .ok (Expr.call (.function fn) g args sp) s2 ∧
      e = (Expr.invokeWorkerFunctionC (wv.withSourceSpan sp) fn g args).withSourceSpan sp := by
  unfold workerInvokeCore pmessage at h
  simp only [] at h
  cases hh : invokeHead s with
  | ok wv s1 =>
    rw [hh] at h
    simp only [] at h
    cases hr : ribE s1 with
    | ok c s3 =>
      rw [hr] at h
      simp only [] at h
      cases c with
      | call ct g args sp =>
        cases ct with
        | function fn =>
          simp only [] at h
          cases h
          exact ⟨wv, s1, fn, g, args, sp, rfl, hr, rfl⟩
        | otherKind t => exact absurd h (by simp)
      | identifier n sc sp => exact absurd h (by simp)
      | literal v sp => exact absurd h (by simp)
      | letBinding n b th sp => exact absurd h (by simp)
      | exprBlock es sp => exact absurd h (by simp)
      | invokeWorkerFunction w fn g args sp => exact absurd h (by simp)
    | err e0 => rw [hr] at h; exact absurd h (by simp)
    | outOfFuel => rw [hr] at h; exact absurd h (by simp)
  | err e0 => rw [hh] at h; exact absurd h (by simp)
  | outOfFuel => rw [hh] at h; exact absurd h (by simp)

theorem spanOf_withSourceSpan (e : Expr) (sp : SourceSpan) :
    (e.withSourceSpan sp).spanOf = sp := by
  cases e <;> rfl

/-! ## Claims about the authorization value type -/

/-- Claim C8: `DefaultNamespace` round-trips through its text
representation — `Display` yields exactly "default" and `TryFrom<String>`
maps "default" back to the value, so `try_from(to_string(ns)) = Ok(ns)`. -/
theorem defaultNamespace_roundtrip (ns : DefaultNamespace) :
    DefaultNamespace.toText ns = "default" ∧
    DefaultNamespace.tryFrom (DefaultNamespace.toText ns) = .ok ns := by
  cases ns
  exact ⟨rfl, rfl⟩

/-- Claim C9: on every string other than exactly "default",
`DefaultNamespace::try_from` fails with the message
"Failed to parse empty namespace". -/
theorem defaultNamespace_rejects_other (s : String) (h : s ≠ "default") :
    DefaultNamespace.tryFrom s = .error "Failed to parse empty namespace" := by
  simp [DefaultNamespace.tryFrom, h]

theorem defaultNamespace_rejects_other_witness :
    DefaultNamespace.tryFrom "Default" = .error "Failed to parse empty namespace" ∧
    DefaultNamespace.tryFrom " default " = .error "Failed to parse empty namespace" :=
  ⟨defaultNamespace_rejects_other "Default" (by decide),
   defaultNamespace_rejects_other " default " (by decide)⟩

/-! ## Claims about the worker-invocation production -/

/-- Claim C2, counterexample: on the input "w.f()" the worker-reference
node inside the parsed `InvokeWorkerFunction` carries the span ⟨2, 5⟩ of
the right-hand call expression "f()", which is not the span ⟨0, 5⟩ of the
entire expression including the leading identifier and the dot. -/
theorem worker_ref_span_not_full_expr_cex :
    workerFunctionInvoke ⟨"w.f()".toList, 0⟩ =
      .ok (.invokeWorkerFunction (.identifier "w" none ⟨2, 5⟩) "f" none [] ⟨2, 5⟩) ⟨[], 5⟩ ∧
    (⟨2, 5⟩ : SourceSpan) ≠ ⟨0, 5⟩ :=
  ⟨rfl, by decide⟩

/-- Claim C2, amended: on every successful `worker_function_invoke` parse,
the worker-reference node carries a source span equal to the span of the
right-hand call expression (the `f[t]?(...)` portion parsed after the
dot), not the span of the worker identifier alone; the top-level
`InvokeWorkerFunction` node carries that same span. -/
theorem worker_ref_span_transplant (s : ParseState) (e : Expr) (s2 : ParseState)
    (h : workerFunctionInvoke s = .ok e s2) :
    ∃ wv s1 fn g args sp,
      invokeHead s = .ok wv s1 ∧
      ribExpr s1 = .ok (Expr.call (.function fn) g args sp) s2 ∧
      e = .invokeWorkerFunction (wv.withSourceSpan sp) fn g args sp ∧
      (wv.withSourceSpan sp).spanOf = sp ∧ e.spanOf = sp := by
  obtain ⟨wv, s1, fn, g, args, sp, h1, h2, h3⟩ := workerInvokeCore_ok ribExpr s e s2 h
  exact ⟨wv, s1, fn, g, args, sp, h1, h2, h3, spanOf_withSourceSpan wv sp,
    by rw [h3]; rfl⟩

theorem worker_ref_span_transplant_witness :
    ∃ wv s1 fn g args sp,
      invokeHead ⟨"w.f()".toList, 0⟩ = .ok wv s1 ∧
      ribExpr s1 = .ok (Expr.call (.function fn) g args sp) ⟨[], 5⟩ ∧
      (Expr.invokeWorkerFunction (.identifier "w" none ⟨2, 5⟩) "f" none [] ⟨2, 5⟩ : Expr)
        = .invokeWorkerFunction (wv.withSourceSpan sp) fn g args sp ∧
      (wv.withSourceSpan sp).spanOf = sp ∧
      (Expr.invokeWorkerFunction (.identifier "w" none ⟨2, 5⟩) "f" none [] ⟨2, 5⟩ : Expr).spanOf
        = sp :=
  worker_ref_span_transplant ⟨"w.f()".toList, 0⟩ _ _ rfl

/-- Claim C4: every failure of the `worker_function_invoke` production —
wherever it arises — carries the message "Invalid function call" in its
failure context. -/
theorem failure_carries_invalid_function_call (s : ParseState) (er : ParseErr)
    (h : workerFunctionInvoke s = .err er) :
    "Invalid function call" ∈ er.messages := by
  unfold workerFunctionInvoke workerInvokeCore at h
  exact pmessage_err _ _ s er h

theorem failure_carries_invalid_function_call_witness :
    ∃ er, workerFunctionInvoke ⟨"w".toList, 0⟩ = .err er ∧
      "Invalid function call" ∈ er.messages :=
  ⟨⟨1, ["expected dot", "Invalid function call"]⟩, rfl,
    failure_carries_invalid_function_call ⟨"w".toList, 0⟩ _ rfl⟩

/-- Claim C3: whenever the right-hand side of `w.` parses successfully to
an expression that is not a `Call` with `CallType::Function`, the
`worker_function_invoke` production fails, and the failure carries the
message "Invalid function call"; no AST node is produced. -/
theorem invalid_rhs_fails (s s1 s2 : ParseState) (wv e : Expr)
    (hhead : invokeHead s = .ok wv s1)
    (hrhs : ribExpr s1 = .ok e s2)
    (hnc : isFunctionCall e = false) :
    ∃ er, workerFunctionInvoke s = .err er ∧ "Invalid function call" ∈ er.messages := by
  refine ⟨⟨s2.pos, ["Invalid function call", "Invalid function call"]⟩, ?_, by simp⟩
  unfold workerFunctionInvoke workerInvokeCore pmessage
  simp only []
  rw [hhead]
  simp only []
  rw [hrhs]
  simp only []
  cases e with
  | call ct g args sp =>
    cases ct with
    | function fn => simp [isFunctionCall] at hnc
    | otherKind t => rfl
  | identifier n sc sp => rfl
  | literal v sp => rfl
  | letBinding n b th sp => rfl
  | exprBlock es sp => rfl
  | invokeWorkerFunction w fn g args sp => rfl

theorem invalid_rhs_fails_witness :
    ∃ er, workerFunctionInvoke ⟨"w.g.h()".toList, 0⟩ = .err er ∧
      "Invalid function call" ∈ er.messages :=
  invalid_rhs_fails ⟨"w.g.h()".toList, 0⟩ ⟨"g.h()".toList, 2⟩ ⟨[], 7⟩
    (.identifier "w" none ⟨0, 1⟩)
    (.invokeWorkerFunction (.identifier "g" none ⟨4, 7⟩) "h" none [] ⟨4, 7⟩)
    rfl rfl rfl

/-- Claim C6: the two-statement program binding a worker instance and then
invoking a function on it parses to the expected `Block` of a `LetBinding`
and an `InvokeWorkerFunction` (compared modulo source spans, as the Rust
`PartialEq` does). -/
theorem block_roundtrip_program :
    fromTextView "let worker = instance(\"my-worker\"); worker.function-name(foo, bar, baz)" =
      some (.exprBlock
        [.letBinding "worker"
            (.call (.function "instance") none [.literal "my-worker" dummySpan] dummySpan)
            none dummySpan,
         .invokeWorkerFunction (.identifier "worker" none dummySpan) "function-name" none
            [.identifier "foo" none dummySpan, .identifier "bar" none dummySpan,
             .identifier "baz" none dummySpan] dummySpan]
        dummySpan) := rfl

/-! ## Consumption lemmas -/

theorem spanWhile_len (p : Char → Bool) (l : List Char) :
    (spanWhile p l).1.length + (spanWhile p l).2.length = l.length := by
  conv_rhs => rw [← spanWhile_eq_append p l]
  simp

theorem skipSpaces_len (s : ParseState) :
    (skipSpaces s).input.length ≤ s.input.length := by
  have h := spanWhile_len isSpaceChar s.input
  show (spanWhile isSpaceChar s.input).2.length ≤ s.input.length
  omega

theorem identName_not_oof (s : ParseState) : identName s ≠ .outOfFuel := by
  unfold identName
  cases s.input with
  | nil => simp
  | cons c r =>
    by_cases hc : isIdentStart c = true
    · simp [hc]
    · simp only [Bool.not_eq_true] at hc
      simp [hc]

theorem identName_consumes (s : ParseState) (n : String) (s1 : ParseState)
    (h : identName s = .ok n s1) : s1.input.length < s.input.length := by
  unfold identName at h
  cases hin : s.input with
  | nil => rw [hin] at h; exact absurd h (by simp)
  | cons c r =>
    rw [hin] at h
    simp only [] at h
    by_cases hc : isIdentStart c = true
    · rw [if_pos hc] at h
      have hl := spanWhile_len isIdentChar r
      cases h
      simp
      omega
    · rw [if_neg hc] at h; exact absurd h (by simp)

theorem identifier_not_oof (s : ParseState) : identifier s ≠ .outOfFuel := by
  unfold identifier
  cases hn : identName s with
  | ok n s1 => simp
  | err er => simp
  | outOfFuel => exact absurd hn (identName_not_oof s)

theorem identifier_consumes (s : ParseState) (e : Expr) (s1 : ParseState)
    (h : identifier s = .ok e s1) : s1.input.length < s.input.length := by
  unfold identifier at h
  cases hn : identName s with
  | ok n s2 =>
    rw [hn] at h
    cases h
    exact identName_consumes s n s1 hn
  | err er => rw [hn] at h; exact absurd h (by simp)
  | outOfFuel => exact absurd hn (identName_not_oof s)

theorem identifier_ok_shape (s : ParseState) (e : Expr) (s1 : ParseState)
    (h : identifier s = .ok e s1) : ∃ n sp, e = .identifier n none sp := by
  unfold identifier at h
  cases hn : identName s with
  | ok n s2 =>
    rw [hn] at h
    cases h
    exact ⟨n, _, rfl⟩
  | err er => rw [hn] at h; exact absurd h (by simp)
  | outOfFuel => exact absurd hn (identName_not_oof s)

theorem invokeHead_not_oof (s : ParseState) : invokeHead s ≠ .outOfFuel := by
  unfold invokeHead
  cases hi : identifier s with
  | ok wv s1 =>
    simp only []
    cases hd : (skipSpaces s1).input with
    | nil => simp
    | cons c r =>
      by_cases hc : c = '.'
      · simp [hc]
      · simp [hc]
  | err er => simp
  | outOfFuel => exact absurd hi (identifier_not_oof s)

theorem invokeHead_consumes (s : ParseState) (wv : Expr) (s1 : ParseState)
    (h : invokeHead s = .ok wv s1) : s1.input.length + 2 ≤ s.input.length := by
  unfold invokeHead at h
  cases hi : identifier s with
  | ok w0 s2 =>
    rw [hi] at h
    simp only [] at h
    have h2 : s2.input.length < s.input.length := identifier_consumes s w0 s2 hi
    have h3 : (skipSpaces s2).input.length ≤ s2.input.length := skipSpaces_len s2
    cases hd : (skipSpaces s2).input with
    | nil => rw [hd] at h; exact absurd h (by simp)
    | cons c r =>
      rw [hd] at h
      simp only [] at h
      by_cases hc : c = '.'
      · rw [if_pos hc] at h
        cases h
        rw [hd] at h3
        simp at h3
        simp only []
        omega
      · rw [if_neg hc] at h
        exact absurd h (by simp)
  | err er => rw [hi] at h; exact absurd h (by simp)
  | outOfFuel => exact absurd hi (identifier_not_oof s)

theorem literalP_not_oof (s : ParseState) : literalP s ≠ .outOfFuel := by
  unfold literalP
  cases s.input with
  | nil => simp
  | cons c r =>
    simp only []
    by_cases hc : c = '"'
    · rw [if_pos hc]
      split
      · split <;> simp
      · simp
    · rw [if_neg hc]; simp

theorem literalP_consumes (s : ParseState) (e : Expr) (s1 : ParseState)
    (h : literalP s = .ok e s1) : s1.input.length < s.input.length := by
  unfold literalP at h
  cases hin : s.input with
  | nil => rw [hin] at h; exact absurd h (by simp)
  | cons c r =>
    rw [hin] at h
    simp only [] at h
    by_cases hc : c = '"'
    · rw [if_pos hc] at h
      have hl := spanWhile_len (fun x => !(x == '"')) r
      cases hpr : (spanWhile (fun x => !(x == '"')) r).2 with
      | nil => rw [hpr] at h; exact absurd h (by simp)
      | cons c2 r2 =>
        rw [hpr] at h
        simp only [] at h
        by_cases hc2 : c2 = '"'
        · rw [if_pos hc2] at h
          cases h
          rw [hpr] at hl
          simp at hl ⊢
          omega
        · rw [if_neg hc2] at h; exact absurd h (by simp)
    · rw [if_neg hc] at h; exact absurd h (by simp)

theorem typeParamP_not_oof (s : ParseState) : typeParamP s ≠ .outOfFuel := by
  unfold typeParamP
  cases s.input with
  | nil => simp
  | cons c r =>
    simp only []
    by_cases hc : c = '['
    · rw [if_pos hc]
      split
      · split
        · split <;> simp
        · simp
      · simp
    · rw [if_neg hc]; simp

theorem typeParamP_consumes (s : ParseState) (g : GenericTypeParameter) (s1 : ParseState)
    (h : typeParamP s = .ok g s1) : s1.input.length ≤ s.input.length := by
  unfold typeParamP at h
  cases hin : s.input with
  | nil => rw [hin] at h; exact absurd h (by simp)
  | cons c r =>
    rw [hin] at h
    simp only [] at h
    by_cases hc : c = '['
    · rw [if_pos hc] at h
      have hl := spanWhile_len (fun x => !(x == ']')) r
      cases hpr : (spanWhile (fun x => !(x == ']')) r).2 with
      | nil => rw [hpr] at h; exact absurd h (by simp)
      | cons c2 r2 =>
        rw [hpr] at h
        simp only [] at h
        by_cases hc2 : c2 = ']'
        · rw [if_pos hc2] at h
          by_cases he : (spanWhile (fun x => !(x == ']')) r).1.isEmpty = true
          · rw [if_pos he] at h; exact absurd h (by simp)
          · rw [if_neg he] at h
            cases h
            rw [hpr] at hl
            simp at hl ⊢
            omega
        · rw [if_neg hc2] at h; exact absurd h (by simp)
    · rw [if_neg hc] at h; exact absurd h (by simp)

theorem poptionTP_not_oof (s : ParseState) : poption typeParamP s ≠ .outOfFuel := by
  unfold poption
  cases ht : typeParamP s with
  | ok g s1 => simp
  | err er => simp
  | outOfFuel => exact absurd ht (typeParamP_not_oof s)

theorem poptionTP_le (s : ParseState) (g : Option GenericTypeParameter) (s1 : ParseState)
    (h : poption typeParamP s = .ok g s1) : s1.input.length ≤ s.input.length := by
  unfold poption at h
  cases ht : typeParamP s with
  | ok g0 s2 =>
    rw [ht] at h
    cases h
    exact typeParamP_consumes s g0 s1 ht
  | err er =>
    rw [ht] at h
    cases h
    exact Nat.le_refl _
  | outOfFuel => exact absurd ht (typeParamP_not_oof s)

theorem porelse_ok {α : Type} (p q : Parser α) (s : ParseState) (a : α) (s1 : ParseState)
    (h : porelse p q s = .ok a s1) : p s = .ok a s1 ∨ q s = .ok a s1 := by
  unfold porelse at h
  revert h
  cases hp : p s with
  | ok b s2 => intro h; exact Or.inl h
  | err e => intro h; exact Or.inr h
  | outOfFuel => intro h; exact absurd h (by simp)

theorem porelse_not_oof {α : Type} (p q : Parser α) (s : ParseState)
    (hp : p s ≠ .outOfFuel) (hq : q s ≠ .outOfFuel) : porelse p q s ≠ .outOfFuel := by
  unfold porelse
  cases hps : p s with
  | ok a s1 => simp
  | err e => exact hq
  | outOfFuel => exact absurd hps hp

theorem argsLoop_le (ribE : Parser Expr)
    (hc : ∀ t e t1, ribE t = .ok e t1 → t1.input.length < t.input.length) :
    ∀ n s es s1, argsLoop ribE n s = .ok es s1 → s1.input.length ≤ s.input.length := by
  intro n
  induction n with
  | zero => intro s es s1 h; exact absurd h (by simp [argsLoop])
  | succ m ih =>
    intro s es s1 h
    unfold argsLoop at h
    cases hr : ribE s with
    | ok e t1 =>
      rw [hr] at h
      simp only [] at h
      have h1 : t1.input.length < s.input.length := hc s e t1 hr
      have h2 : (skipSpaces t1).input.length ≤ t1.input.length := skipSpaces_len t1
      cases hd : (skipSpaces t1).input with
      | nil =>
        rw [hd] at h
        cases h
        rw [hd]
        simp
      | cons c r =>
        rw [hd] at h
        simp only [] at h
        by_cases hcm : c = ','
        · rw [if_pos hcm] at h
          have h3 : (skipSpaces ⟨r, (skipSpaces t1).pos + 1⟩).input.length ≤ r.length :=
            skipSpaces_len ⟨r, (skipSpaces t1).pos + 1⟩
          cases ha : argsLoop ribE m (skipSpaces ⟨r, (skipSpaces t1).pos + 1⟩) with
          | ok es2 s4 =>
            rw [ha] at h
            cases h
            have h4 := ih _ _ _ ha
            rw [hd] at h2
            simp at h2
            omega
          | err er => rw [ha] at h; exact absurd h (by simp)
          | outOfFuel => rw [ha] at h; exact absurd h (by simp)
        · rw [if_neg hcm] at h
          cases h
          rw [hd] at h2 ⊢
          simp at h2 ⊢
          omega
    | err er => rw [hr] at h; exact absurd h (by simp)
    | outOfFuel => rw [hr] at h; exact absurd h (by simp)

theorem callCore_consumes (ribE : Parser Expr)
    (hc : ∀ t e t1, ribE t = .ok e t1 → t1.input.length < t.input.length)
    (s : ParseState) (e : Expr) (s1 : ParseState)
    (h : callCore ribE s = .ok e s1) : s1.input.length < s.input.length := by
  unfold callCore at h
  cases hn : identName s with
  | ok name t1 =>
    rw [hn] at h
    simp only [] at h
    have h1 : t1.input.length < s.input.length := identName_consumes s name t1 hn
    cases hp : poption typeParamP t1 with
    | ok g t2 =>
      rw [hp] at h
      simp only [] at h
      have h2 : t2.input.length ≤ t1.input.length := poptionTP_le t1 g t2 hp
      cases hin : t2.input with
      | nil => rw [hin] at h; exact absurd h (by simp)
      | cons c r =>
        rw [hin] at h
        simp only [] at h
        by_cases hop : c = '('
        · rw [if_pos hop] at h
          have h3 : (skipSpaces ⟨r, t2.pos + 1⟩).input.length ≤ r.length :=
            skipSpaces_len ⟨r, t2.pos + 1⟩
          by_cases hcl : (skipSpaces ⟨r, t2.pos + 1⟩).input.head? = some ')'
          · rw [if_pos hcl] at h
            cases h
            have ht := List.length_tail (skipSpaces ⟨r, t2.pos + 1⟩).input
            rw [hin] at h2
            simp at h2 ⊢
            omega
          · rw [if_neg hcl] at h
            cases ha : argsLoop ribE ((skipSpaces ⟨r, t2.pos + 1⟩).input.length + 1)
                (skipSpaces ⟨r, t2.pos + 1⟩) with
            | ok args s4 =>
              rw [ha] at h
              simp only [] at h
              have h4 : s4.input.length ≤ (skipSpaces ⟨r, t2.pos + 1⟩).input.length :=
                argsLoop_le ribE hc _ _ _ _ ha
              by_cases hcl2 : s4.input.head? = some ')'
              · rw [if_pos hcl2] at h
                cases h
                have ht := List.length_tail s4.input
                rw [hin] at h2
                simp at h2 ⊢
                omega
              · rw [if_neg hcl2] at h; exact absurd h (by simp)
            | err er => rw [ha] at h; exact absurd h (by simp)
            | outOfFuel => rw [ha] at h; exact absurd h (by simp)
        · rw [if_neg hop] at h; exact absurd h (by simp)
    | err er => rw [hp] at h; exact absurd h (by simp)
    | outOfFuel => exact absurd hp (poptionTP_not_oof t1)
  | err er => rw [hn] at h; exact absurd h (by simp)
  | outOfFuel => exact absurd hn (identName_not_oof s)

theorem letCore_consumes (ribE : Parser Expr)
    (hc : ∀ t e t1, ribE t = .ok e t1 → t1.input.length < t.input.length)
    (s : ParseState) (e : Expr) (s1 : ParseState)
    (h : letCore ribE s = .ok e s1) : s1.input.length < s.input.length := by
  unfold letCore at h
  cases hin : s.input with
  | nil => rw [hin] at h; exact absurd h (by simp)
  | cons c1 r1 =>
    cases r1 with
    | nil => rw [hin] at h; exact absurd h (by simp)
    | cons c2 r2 =>
      cases r2 with
      | nil => rw [hin] at h; exact absurd h (by simp)
      | cons c3 r3 =>
        cases r3 with
        | nil => rw [hin] at h; exact absurd h (by simp)
        | cons c4 r =>
          rw [hin] at h
          simp only [] at h
          by_cases hkw : (c1 = 'l' ∧ c2 = 'e' ∧ c3 = 't') ∧ isSpaceChar c4 = true
          · rw [if_pos hkw] at h
            have ha : (skipSpaces ⟨c4 :: r, s.pos + 3⟩).input.length ≤ (c4 :: r).length :=
              skipSpaces_len _
            cases hn : identName (skipSpaces ⟨c4 :: r, s.pos + 3⟩) with
            | ok name t2 =>
              rw [hn] at h
              simp only [] at h
              have hb : t2.input.length < (skipSpaces ⟨c4 :: r, s.pos + 3⟩).input.length :=
                identName_consumes _ _ _ hn
              have hcs : (skipSpaces t2).input.length ≤ t2.input.length := skipSpaces_len t2
              cases hd : (skipSpaces t2).input with
              | nil => rw [hd] at h; exact absurd h (by simp)
              | cons ce re =>
                rw [hd] at h
                simp only [] at h
                by_cases he : ce = '='
                · rw [if_pos he] at h
                  have hf : (skipSpaces ⟨re, (skipSpaces t2).pos + 1⟩).input.length ≤ re.length :=
                    skipSpaces_len _
                  cases hr : ribE (skipSpaces ⟨re, (skipSpaces t2).pos + 1⟩) with
                  | ok b t5 =>
                    rw [hr] at h
                    simp only [] at h
                    cases h
                    have hg := hc _ _ _ hr
                    rw [hd] at hcs
                    simp at hcs ha ⊢
                    omega
                  | err er => rw [hr] at h; exact absurd h (by simp)
                  | outOfFuel => rw [hr] at h; exact absurd h (by simp)
                · rw [if_neg he] at h; exact absurd h (by simp)
            | err er => rw [hn] at h; exact absurd h (by simp)
            | outOfFuel => exact absurd hn (identName_not_oof _)
          · rw [if_neg hkw] at h; exact absurd h (by simp)

theorem workerInvokeCore_consumes (ribE : Parser Expr)
    (hc : ∀ t e t1, ribE t = .ok e t1 → t1.input.length < t.input.length)
    (s : ParseState) (e : Expr) (s1 : ParseState)
    (h : workerInvokeCore ribE s = .ok e s1) : s1.input.length < s.input.length := by
  obtain ⟨wv, t1, fn, g, args, sp, h1, h2, h3⟩ := workerInvokeCore_ok ribE s e s1 h
  have h4 := invokeHead_consumes s wv t1 h1
  have h5 := hc _ _ _ h2
  omega

theorem ribExprFuel_consumes :
    ∀ fuel s e s1, ribExprFuel fuel s = .ok e s1 → s1.input.length < s.input.length := by
  intro fuel
  induction fuel with
  | zero => intro s e s1 h; exact absurd h (by simp [ribExprFuel])
  | succ m ih =>
    intro s e s1 h
    unfold ribExprFuel at h
    rcases porelse_ok _ _ _ _ _ h with h | h
    · exact letCore_consumes _ ih s e s1 h
    · rcases porelse_ok _ _ _ _ _ h with h | h
      · exact workerInvokeCore_consumes _ ih s e s1 h
      · rcases porelse_ok _ _ _ _ _ h with h | h
        · exact callCore_consumes _ ih s e s1 h
        · rcases porelse_ok _ _ _ _ _ h with h | h
          · exact literalP_consumes s e s1 h
          · exact identifier_consumes s e s1 h

theorem ribExpr_consumes (s : ParseState) (e : Expr) (s1 : ParseState)
    (h : ribExpr s = .ok e s1) : s1.input.length < s.input.length :=
  ribExprFuel_consumes (s.input.length + 1) s e s1 h

/-! ## Fuel sufficiency: the parser cannot run out of fuel -/

theorem pmessage_oof {α : Type} (p : Parser α) (m : String) (s : ParseState) :
    pmessage p m s = .outOfFuel ↔ p s = .outOfFuel := by
  unfold pmessage
  cases hp : p s <;> simp

theorem workerInvokeCore_not_oof (ribE : Parser Expr) (s : ParseState)
    (hne : ∀ t, t.input.length < s.input.length → ribE t ≠ .outOfFuel) :
    workerInvokeCore ribE s ≠ .outOfFuel := by
  intro hoof
  unfold workerInvokeCore at hoof
  rw [pmessage_oof] at hoof
  cases hh : invokeHead s with
  | ok wv t1 =>
    rw [hh] at hoof
    simp only [] at hoof
    have hcon := invokeHead_consumes s wv t1 hh
    cases hr : ribE t1 with
    | ok c t2 =>
      rw [hr] at hoof
      simp only [] at hoof
      cases c with
      | call ct g args sp => cases ct <;> simp at hoof
      | identifier n sc sp => simp at hoof
      | literal v sp => simp at hoof
      | letBinding n b th sp => simp at hoof
      | exprBlock es sp => simp at hoof
      | invokeWorkerFunction w fn g args sp => simp at hoof
    | err er => rw [hr] at hoof; simp at hoof
    | outOfFuel => exact hne t1 (by omega) hr
  | err er => rw [hh] at hoof; simp at hoof
  | outOfFuel => exact invokeHead_not_oof s hh

theorem letCore_not_oof (ribE : Parser Expr) (s : ParseState)
    (hne : ∀ t, t.input.length < s.input.length → ribE t ≠ .outOfFuel) :
    letCore ribE s ≠ .outOfFuel := by
  intro hoof
  unfold letCore at hoof
  cases hin : s.input with
  | nil => rw [hin] at hoof; simp at hoof
  | cons c1 r1 =>
    cases r1 with
    | nil => rw [hin] at hoof; simp at hoof
    | cons c2 r2 =>
      cases r2 with
      | nil => rw [hin] at hoof; simp at hoof
      | cons c3 r3 =>
        cases r3 with
        | nil => rw [hin] at hoof; simp at hoof
        | cons c4 r =>
          rw [hin] at hoof
          simp only [] at hoof
          by_cases hkw : (c1 = 'l' ∧ c2 = 'e' ∧ c3 = 't') ∧ isSpaceChar c4 = true
          · rw [if_pos hkw] at hoof
            have ha : (skipSpaces ⟨c4 :: r, s.pos + 3⟩).input.length ≤ (c4 :: r).length :=
              skipSpaces_len _
            cases hn : identName (skipSpaces ⟨c4 :: r, s.pos + 3⟩) with
            | ok name t2 =>
              rw [hn] at hoof
              simp only [] at hoof
              have hb : t2.input.length < (skipSpaces ⟨c4 :: r, s.pos + 3⟩).input.length :=
                identName_consumes _ _ _ hn
              have hcs : (skipSpaces t2).input.length ≤ t2.input.length := skipSpaces_len t2
              cases hd : (skipSpaces t2).input with
              | nil => rw [hd] at hoof; simp at hoof
              | cons ce re =>
                rw [hd] at hoof
                simp only [] at hoof
                by_cases he : ce = '='
                · rw [if_pos he] at hoof
                  have hf : (skipSpaces ⟨re, (skipSpaces t2).pos + 1⟩).input.length ≤ re.length :=
                    skipSpaces_len _
                  cases hr : ribE (skipSpaces ⟨re, (skipSpaces t2).pos + 1⟩) with
                  | ok b t5 => rw [hr] at hoof; simp at hoof
                  | err er => rw [hr] at hoof; simp at hoof
                  | outOfFuel =>
                    refine hne _ ?_ hr
                    rw [hd] at hcs
                    rw [hin]
                    simp at hcs ha ⊢
                    omega
                · rw [if_neg he] at hoof; simp at hoof
            | err er => rw [hn] at hoof; simp at hoof
            | outOfFuel => exact identName_not_oof _ hn
          · rw [if_neg hkw] at hoof; simp at hoof

theorem argsLoop_not_oof (ribE : Parser Expr) (L : Nat)
    (hne : ∀ t, t.input.length ≤ L → ribE t ≠ .outOfFuel)
    (hc : ∀ t e t1, ribE t = .ok e t1 → t1.input.length < t.input.length) :
    ∀ n s, s.input.length < n → s.input.length ≤ L →
      argsLoop ribE n s ≠ .outOfFuel := by
  intro n
  induction n with
  | zero => intro s h0 h1; exact absurd h0 (Nat.not_lt_zero _)
  | succ m ih =>
    intro s hn hL hoof
    unfold argsLoop at hoof
    cases hr : ribE s with
    | ok e t1 =>
      rw [hr] at hoof
      simp only [] at hoof
      have h1 := hc s e t1 hr
      have h2 := skipSpaces_len t1
      cases hd : (skipSpaces t1).input with
      | nil => rw [hd] at hoof; simp at hoof
      | cons c r =>
        rw [hd] at hoof
        simp only [] at hoof
        by_cases hcm : c = ','
        · rw [if_pos hcm] at hoof
          have h3 := skipSpaces_len (⟨r, (skipSpaces t1).pos + 1⟩ : ParseState)
          rw [hd] at h2
          simp at h2 h3
          cases ha : argsLoop ribE m (skipSpaces ⟨r, (skipSpaces t1).pos + 1⟩) with
          | ok es s4 => rw [ha] at hoof; simp at hoof
          | err er => rw [ha] at hoof; simp at hoof
          | outOfFuel =>
            exact ih (skipSpaces ⟨r, (skipSpaces t1).pos + 1⟩) (by omega) (by omega) ha
        · rw [if_neg hcm] at hoof; simp at hoof
    | err er => rw [hr] at hoof; simp at hoof
    | outOfFuel => exact hne s hL hr

theorem callCore_not_oof (ribE : Parser Expr) (s : ParseState)
    (hne : ∀ t, t.input.length < s.input.length → ribE t ≠ .outOfFuel)
    (hc : ∀ t e t1, ribE t = .ok e t1 → t1.input.length < t.input.length) :
    callCore ribE s ≠ .outOfFuel := by
  intro hoof
  unfold callCore at hoof
  cases hn : identName s with
  | ok name t1 =>
    rw [hn] at hoof
    simp only [] at hoof
    have h1 := identName_consumes s name t1 hn
    cases hp : poption typeParamP t1 with
    | ok g t2 =>
      rw [hp] at hoof
      simp only [] at hoof
      have h2 := poptionTP_le t1 g t2 hp
      cases hin : t2.input with
      | nil => rw [hin] at hoof; simp at hoof
      | cons c r =>
        rw [hin] at hoof
        simp only [] at hoof
        by_cases hop : c = '('
        · rw [if_pos hop] at hoof
          have h3 := skipSpaces_len (⟨r, t2.pos + 1⟩ : ParseState)
          by_cases hcl : (skipSpaces ⟨r, t2.pos + 1⟩).input.head? = some ')'
          · rw [if_pos hcl] at hoof; simp at hoof
          · rw [if_neg hcl] at hoof
            have hr1 : r.length + 1 = t2.input.length := by rw [hin]; simp
            have hNE : ∀ t, t.input.length ≤ (skipSpaces ⟨r, t2.pos + 1⟩).input.length →
                ribE t ≠ .outOfFuel := by
              intro t htl
              apply hne
              simp at h3
              omega
            have hnoof := argsLoop_not_oof ribE ((skipSpaces ⟨r, t2.pos + 1⟩).input.length)
              hNE hc ((skipSpaces ⟨r, t2.pos + 1⟩).input.length + 1)
              (skipSpaces ⟨r, t2.pos + 1⟩) (by omega) (Nat.le_refl _)
            cases ha : argsLoop ribE ((skipSpaces ⟨r, t2.pos + 1⟩).input.length + 1)
                (skipSpaces ⟨r, t2.pos + 1⟩) with
            | ok args s4 =>
              rw [ha] at hoof
              simp only [] at hoof
              by_cases hcl2 : s4.input.head? = some ')'
              · rw [if_pos hcl2] at hoof; simp at hoof
              · rw [if_neg hcl2] at hoof; simp at hoof
            | err er => rw [ha] at hoof; simp at hoof
            | outOfFuel => exact hnoof ha
        · rw [if_neg hop] at hoof; simp at hoof
    | err er => rw [hp] at hoof; simp at hoof
    | outOfFuel => exact poptionTP_not_oof t1 hp
  | err er => rw [hn] at hoof; simp at hoof
  | outOfFuel => exact identName_not_oof s hn

theorem ribExprFuel_not_oof :
    ∀ fuel s, s.input.length < fuel → ribExprFuel fuel s ≠ .outOfFuel := by
  intro fuel
  induction fuel with
  | zero => intro s h; exact absurd h (Nat.not_lt_zero _)
  | succ m ih =>
    intro s hs
    unfold ribExprFuel
    have hne : ∀ t, t.input.length < s.input.length → ribExprFuel m t ≠ .outOfFuel := by
      intro t ht
      exact ih t (by omega)
    apply porelse_not_oof
    · exact letCore_not_oof _ s hne
    · apply porelse_not_oof
      · exact workerInvokeCore_not_oof _ s hne
      · apply porelse_not_oof
        · exact callCore_not_oof _ s hne (ribExprFuel_consumes m)
        · apply porelse_not_oof
          · exact literalP_not_oof s
          · exact identifier_not_oof s

theorem ribExpr_not_oof (s : ParseState) : ribExpr s ≠ .outOfFuel :=
  ribExprFuel_not_oof (s.input.length + 1) s (by omega)

/-- Claim C7: the `worker_function_invoke` production (and the whole
`rib_expr` grammar) terminates on every finite input: the identifier and
the dot are consumed before the recursive descent, so a recursion-depth
budget of one more than the residual input length is never exhausted —
the fuel-indexed parse never returns the fuel-exhaustion marker. -/
theorem parser_terminates (s : ParseState) :
    workerFunctionInvoke s ≠ PResult.outOfFuel ∧ ribExpr s ≠ PResult.outOfFuel := by
  constructor
  · unfold workerFunctionInvoke
    exact workerInvokeCore_not_oof ribExpr s (fun t _ => ribExpr_not_oof t)
  · exact ribExpr_not_oof s

/-! ## The worker-reference invariant -/

theorem invokeHead_ok_shape (s : ParseState) (wv : Expr) (s1 : ParseState)
    (h : invokeHead s = .ok wv s1) : ∃ n sp, wv = .identifier n none sp := by
  unfold invokeHead at h
  cases hi : identifier s with
  | ok w0 s2 =>
    rw [hi] at h
    simp only [] at h
    obtain ⟨n, sp, hw⟩ := identifier_ok_shape s w0 s2 hi
    cases hd : (skipSpaces s2).input with
    | nil => rw [hd] at h; exact absurd h (by simp)
    | cons c r =>
      rw [hd] at h
      simp only [] at h
      by_cases hc : c = '.'
      · rw [if_pos hc] at h
        cases h
        exact ⟨n, sp, hw⟩
      · rw [if_neg hc] at h; exact absurd h (by simp)
  | err er => rw [hi] at h; exact absurd h (by simp)
  | outOfFuel => exact absurd hi (identifier_not_oof s)

theorem literalP_ok_shape (s : ParseState) (e : Expr) (s1 : ParseState)
    (h : literalP s = .ok e s1) : ∃ v sp, e = .literal v sp := by
  unfold literalP at h
  cases hin : s.input with
  | nil => rw [hin] at h; exact absurd h (by simp)
  | cons c r =>
    rw [hin] at h
    simp only [] at h
    by_cases hc : c = '"'
    · rw [if_pos hc] at h
      cases hpr : (spanWhile (fun x => !(x == '"')) r).2 with
      | nil => rw [hpr] at h; exact absurd h (by simp)
      | cons c2 r2 =>
        rw [hpr] at h
        simp only [] at h
        by_cases hc2 : c2 = '"'
        · rw [if_pos hc2] at h
          cases h
          exact ⟨_, _, rfl⟩
        · rw [if_neg hc2] at h; exact absurd h (by simp)
    · rw [if_neg hc] at h; exact absurd h (by simp)

theorem identifier_ok_pred (s : ParseState) (e : Expr) (s1 : ParseState)
    (h : identifier s = .ok e s1) : workerRefsOk e = true := by
  obtain ⟨n, sp, he⟩ := identifier_ok_shape s e s1 h
  rw [he]
  simp [workerRefsOk]

theorem literalP_ok_pred (s : ParseState) (e : Expr) (s1 : ParseState)
    (h : literalP s = .ok e s1) : workerRefsOk e = true := by
  obtain ⟨v, sp, he⟩ := literalP_ok_shape s e s1 h
  rw [he]
  simp [workerRefsOk]

theorem argsLoop_ok_pred (ribE : Parser Expr)
    (hr : ∀ t e t1, ribE t = .ok e t1 → workerRefsOk e = true) :
    ∀ n s es s1, argsLoop ribE n s = .ok es s1 → workerRefsOkList es = true := by
  intro n
  induction n with
  | zero => intro s es s1 h; exact absurd h (by simp [argsLoop])
  | succ m ih =>
    intro s es s1 h
    unfold argsLoop at h
    cases hrr : ribE s with
    | ok e t1 =>
      rw [hrr] at h
      simp only [] at h
      have he := hr s e t1 hrr
      cases hd : (skipSpaces t1).input with
      | nil =>
        rw [hd] at h
        cases h
        simp [workerRefsOkList, he]
      | cons c r =>
        rw [hd] at h
        simp only [] at h
        by_cases hcm : c = ','
        · rw [if_pos hcm] at h
          cases ha : argsLoop ribE m (skipSpaces ⟨r, (skipSpaces t1).pos + 1⟩) with
          | ok es2 s4 =>
            rw [ha] at h
            cases h
            have := ih _ _ _ ha
            simp [workerRefsOkList, he, this]
          | err er => rw [ha] at h; exact absurd h (by simp)
          | outOfFuel => rw [ha] at h; exact absurd h (by simp)
        · rw [if_neg hcm] at h
          cases h
          simp [workerRefsOkList, he]
    | err er => rw [hrr] at h; exact absurd h (by simp)
    | outOfFuel => rw [hrr] at h; exact absurd h (by simp)

theorem callCore_ok_pred (ribE : Parser Expr)
    (hr : ∀ t e t1, ribE t = .ok e t1 → workerRefsOk e = true)
    (s : ParseState) (e : Expr) (s1 : ParseState)
    (h : callCore ribE s = .ok e s1) : workerRefsOk e = true := by
  unfold callCore at h
  cases hn : identName s with
  | ok name t1 =>
    rw [hn] at h
    simp only [] at h
    cases hp : poption typeParamP t1 with
    | ok g t2 =>
      rw [hp] at h
      simp only [] at h
      cases hin : t2.input with
      | nil => rw [hin] at h; exact absurd h (by simp)
      | cons c r =>
        rw [hin] at h
        simp only [] at h
        by_cases hop : c = '('
        · rw [if_pos hop] at h
          by_cases hcl : (skipSpaces ⟨r, t2.pos + 1⟩).input.head? = some ')'
          · rw [if_pos hcl] at h
            cases h
            simp [workerRefsOk, workerRefsOkList]
          · rw [if_neg hcl] at h
            cases ha : argsLoop ribE ((skipSpaces ⟨r, t2.pos + 1⟩).input.length + 1)
                (skipSpaces ⟨r, t2.pos + 1⟩) with
            | ok args s4 =>
              rw [ha] at h
              simp only [] at h
              by_cases hcl2 : s4.input.head? = some ')'
              · rw [if_pos hcl2] at h
                cases h
                have := argsLoop_ok_pred ribE hr _ _ _ _ ha
                simp [workerRefsOk, this]
              · rw [if_neg hcl2] at h; exact absurd h (by simp)
            | err er => rw [ha] at h; exact absurd h (by simp)
            | outOfFuel => rw [ha] at h; exact absurd h (by simp)
        · rw [if_neg hop] at h; exact absurd h (by simp)
    | err er => rw [hp] at h; exact absurd h (by simp)
    | outOfFuel => exact absurd hp (poptionTP_not_oof t1)
  | err er => rw [hn] at h; exact absurd h (by simp)
  | outOfFuel => exact absurd hn (identName_not_oof s)

theorem letCore_ok_pred (ribE : Parser Expr)
    (hr : ∀ t e t1, ribE t = .ok e t1 → workerRefsOk e = true)
    (s : ParseState) (e : Expr) (s1 : ParseState)
    (h : letCore ribE s = .ok e s1) : workerRefsOk e = true := by
  unfold letCore at h
  cases hin : s.input with
  | nil => rw [hin] at h; exact absurd h (by simp)
  | cons c1 r1 =>
    cases r1 with
    | nil => rw [hin] at h; exact absurd h (by simp)
    | cons c2 r2 =>
      cases r2 with
      | nil => rw [hin] at h; exact absurd h (by simp)
      | cons c3 r3 =>
        cases r3 with
        | nil => rw [hin] at h; exact absurd h (by simp)
        | cons c4 r =>
          rw [hin] at h
          simp only [] at h
          by_cases hkw : (c1 = 'l' ∧ c2 = 'e' ∧ c3 = 't') ∧ isSpaceChar c4 = true
          · rw [if_pos hkw] at h
            cases hn : identName (skipSpaces ⟨c4 :: r, s.pos + 3⟩) with
            | ok name t2 =>
              rw [hn] at h
              simp only [] at h
              cases hd : (skipSpaces t2).input with
              | nil => rw [hd] at h; exact absurd h (by simp)
              | cons ce re =>
                rw [hd] at h
                simp only [] at h
                by_cases he : ce = '='
                · rw [if_pos he] at h
                  cases hrr : ribE (skipSpaces ⟨re, (skipSpaces t2).pos + 1⟩) with
                  | ok b t5 =>
                    rw [hrr] at h
                    simp only [] at h
                    cases h
                    have := hr _ _ _ hrr
                    simp [workerRefsOk, this]
                  | err er => rw [hrr] at h; exact absurd h (by simp)
                  | outOfFuel => rw [hrr] at h; exact absurd h (by simp)
                · rw [if_neg he] at h; exact absurd h (by simp)
            | err er => rw [hn] at h; exact absurd h (by simp)
            | outOfFuel => exact absurd hn (identName_not_oof _)
          · rw [if_neg hkw] at h; exact absurd h (by simp)

theorem workerInvokeCore_ok_pred (ribE : Parser Expr)
    (hr : ∀ t e t1, ribE t = .ok e t1 → workerRefsOk e = true)
    (s : ParseState) (e : Expr) (s1 : ParseState)
    (h : workerInvokeCore ribE s = .ok e s1) : workerRefsOk e = true := by
  obtain ⟨wv, t1, fn, g, args, sp, h1, h2, h3⟩ := workerInvokeCore_ok ribE s e s1 h
  obtain ⟨n, sp0, hw⟩ := invokeHead_ok_shape s wv t1 h1
  have hargs := hr _ _ _ h2
  simp [workerRefsOk] at hargs
  rw [h3, hw]
  simp [Expr.invokeWorkerFunctionC, Expr.withSourceSpan, workerRefsOk, isIdentifierExpr, hargs]

theorem ribExprFuel_ok_pred :
    ∀ fuel s e s1, ribExprFuel fuel s = .ok e s1 → workerRefsOk e = true := by
  intro fuel
  induction fuel with
  | zero => intro s e s1 h; exact absurd h (by simp [ribExprFuel])
  | succ m ih =>
    intro s e s1 h
    unfold ribExprFuel at h
    rcases porelse_ok _ _ _ _ _ h with h | h
    · exact letCore_ok_pred _ ih s e s1 h
    · rcases porelse_ok _ _ _ _ _ h with h | h
      · exact workerInvokeCore_ok_pred _ ih s e s1 h
      · rcases porelse_ok _ _ _ _ _ h with h | h
        · exact callCore_ok_pred _ ih s e s1 h
        · rcases porelse_ok _ _ _ _ _ h with h | h
          · exact literalP_ok_pred s e s1 h
          · exact identifier_ok_pred s e s1 h

theorem ribExpr_ok_pred (s : ParseState) (e : Expr) (s1 : ParseState)
    (h : ribExpr s = .ok e s1) : workerRefsOk e = true :=
  ribExprFuel_ok_pred (s.input.length + 1) s e s1 h

theorem stmtsLoop_ok_pred (ribE : Parser Expr)
    (hr : ∀ t e t1, ribE t = .ok e t1 → workerRefsOk e = true) :
    ∀ n s es s1, stmtsLoop ribE n s = .ok es s1 → workerRefsOkList es = true := by
  intro n
  induction n with
  | zero => intro s es s1 h; exact absurd h (by simp [stmtsLoop])
  | succ m ih =>
    intro s es s1 h
    unfold stmtsLoop at h
    cases hrr : ribE s with
    | ok e t1 =>
      rw [hrr] at h
      simp only [] at h
      have he := hr s e t1 hrr
      cases hd : (skipSpaces t1).input with
      | nil =>
        rw [hd] at h
        cases h
        simp [workerRefsOkList, he]
      | cons c r =>
        rw [hd] at h
        simp only [] at h
        by_cases hcm : c = ';'
        · rw [if_pos hcm] at h
          cases ha : stmtsLoop ribE m (skipSpaces ⟨r, (skipSpaces t1).pos + 1⟩) with
          | ok es2 s4 =>
            rw [ha] at h
            cases h
            have := ih _ _ _ ha
            simp [workerRefsOkList, he, this]
          | err er => rw [ha] at h; exact absurd h (by simp)
          | outOfFuel => rw [ha] at h; exact absurd h (by simp)
        · rw [if_neg hcm] at h
          cases h
          simp [workerRefsOkList, he]
    | err er => rw [hrr] at h; exact absurd h (by simp)
    | outOfFuel => rw [hrr] at h; exact absurd h (by simp)

theorem program_ok_pred (s : ParseState) (e : Expr) (s1 : ParseState)
    (h : program s = .ok e s1) : workerRefsOk e = true := by
  unfold program at h
  simp only [] at h
  cases hs : stmtsLoop ribExpr ((skipSpaces s).input.length + 1) (skipSpaces s) with
  | ok es t1 =>
    rw [hs] at h
    have hall := stmtsLoop_ok_pred ribExpr ribExpr_ok_pred _ _ _ _ hs
    cases es with
    | nil =>
      simp only [] at h
      cases h
      simp [workerRefsOk, workerRefsOkList]
    | cons e0 es0 =>
      cases es0 with
      | nil =>
        simp only [] at h
        cases h
        simp [workerRefsOkList] at hall
        exact hall
      | cons e1 es1 =>
        simp only [] at h
        cases h
        simp [workerRefsOk]
        exact hall
  | err er => rw [hs] at h; exact absurd h (by simp)
  | outOfFuel => rw [hs] at h; exact absurd h (by simp)

theorem fromText_ok_pred (text : String) (e : Expr)
    (h : fromText text = .ok e) : workerRefsOk e = true := by
  unfold fromText at h
  cases hp : program ⟨text.toList, 0⟩ with
  | ok e0 s1 =>
    rw [hp] at h
    simp only [] at h
    by_cases hemp : s1.input.isEmpty = true
    · rw [if_pos hemp] at h
      cases h
      exact program_ok_pred _ _ _ hp
    · rw [if_neg hemp] at h; exact absurd h (by simp)
  | err er => rw [hp] at h; exact absurd h (by simp)
  | outOfFuel => rw [hp] at h; exact absurd h (by simp)

/-- Claim C5: every `InvokeWorkerFunction` node produced by a parse —
whether by the expression grammar or by a whole-program parse — holds an
identifier-class expression in its worker-reference position, never a
`Call` or another `InvokeWorkerFunction`. -/
theorem parsed_worker_refs_are_identifiers (s : ParseState) (e : Expr) (s1 : ParseState)
    (text : String) (e2 : Expr)
    (h1 : ribExpr s = .ok e s1) (h2 : fromText text = .ok e2) :
    workerRefsOk e = true ∧ workerRefsOk e2 = true :=
  ⟨ribExpr_ok_pred s e s1 h1, fromText_ok_pred text e2 h2⟩

theorem parsed_worker_refs_are_identifiers_witness :
    workerRefsOk (.invokeWorkerFunction (.identifier "w" none ⟨2, 5⟩) "f" none [] ⟨2, 5⟩)
        = true ∧
    workerRefsOk (.invokeWorkerFunction (.identifier "w" none ⟨2, 5⟩) "f" none [] ⟨2, 5⟩)
        = true :=
  parsed_worker_refs_are_identifiers ⟨"w.f()".toList, 0⟩ _ ⟨[], 5⟩ "w.f()" _ rfl rfl

/-! ## Evaluation lemmas for the worker-invocation shapes -/

theorem identChar_not_space (c : Char) (h : isIdentChar c = true) :
    isSpaceChar c = false := by
  cases hs : isSpaceChar c
  · rfl
  · exfalso
    simp only [isSpaceChar, Bool.or_eq_true, beq_iff_eq] at hs
    rcases hs with ((h1 | h1) | h1) | h1 <;> (subst h1; exact absurd h (by decide))

theorem identStart_ident (c : Char) (h : isIdentStart c = true) :
    isIdentChar c = true := by
  simp [isIdentStart] at h
  rcases h with h | h
  · simp [isIdentChar, Char.isAlphanum, h]
  · rw [h]; decide

theorem identStart_not_space (c : Char) (h : isIdentStart c = true) :
    isSpaceChar c = false :=
  identChar_not_space c (identStart_ident c h)

theorem identStart_not_quote (c : Char) (h : isIdentStart c = true) : c ≠ '"' := by
  intro he
  rw [he] at h
  exact absurd h (by decide)

theorem validIdent_ne_nil (a : List Char) (h : ValidIdentL a) : a ≠ [] := by
  cases a with
  | nil => exact absurd h id
  | cons x a1 => simp

theorem validIdent_head (a : List Char) (h : ValidIdentL a) (x : Char)
    (hx : a.head? = some x) : isIdentStart x = true := by
  cases a with
  | nil => exact absurd h id
  | cons y a1 =>
    injection hx with h1
    rw [← h1]
    exact h.1

theorem letCore_fail_atom (ribE : Parser Expr) (a rest : List Char) (p : Nat)
    (ha : ValidIdentL a)
    (hrest : ∀ c, rest.head? = some c → isIdentChar c = false ∧ isSpaceChar c = false) :
    ∃ er, letCore ribE ⟨a ++ rest, p⟩ = .err er := by
  cases a with
  | nil => exact absurd ha id
  | cons x a1 =>
    obtain ⟨hx, ha1⟩ := ha
    cases a1 with
    | nil =>
      cases rest with
      | nil => exact ⟨_, rfl⟩
      | cons y r1 =>
        have hy := hrest y rfl
        cases r1 with
        | nil => exact ⟨_, rfl⟩
        | cons z r2 =>
          cases r2 with
          | nil => exact ⟨_, rfl⟩
          | cons u r3 =>
            refine ⟨⟨p, ["expected let binding"]⟩, ?_⟩
            unfold letCore
            simp only [List.cons_append, List.nil_append]
            rw [if_neg ?_]
            rintro ⟨⟨h1, h2, h3⟩, h4⟩
            rw [h2] at hy
            exact absurd hy.1 (by decide)
    | cons y1 a2 =>
      have hy1 : isIdentChar y1 = true := ha1 y1 (by simp)
      cases a2 with
      | nil =>
        cases rest with
        | nil => exact ⟨_, rfl⟩
        | cons z r2 =>
          have hz := hrest z rfl
          cases r2 with
          | nil => exact ⟨_, rfl⟩
          | cons u r3 =>
            refine ⟨⟨p, ["expected let binding"]⟩, ?_⟩
            unfold letCore
            simp only [List.cons_append, List.nil_append]
            rw [if_neg ?_]
            rintro ⟨⟨h1, h2, h3⟩, h4⟩
            rw [h3] at hz
            exact absurd hz.1 (by decide)
      | cons z1 a3 =>
        have hz1 : isIdentChar z1 = true := ha1 z1 (by simp)
        cases a3 with
        | nil =>
          cases rest with
          | nil => exact ⟨_, rfl⟩
          | cons u r3 =>
            have hu := hrest u rfl
            refine ⟨⟨p, ["expected let binding"]⟩, ?_⟩
            unfold letCore
            simp only [List.cons_append, List.nil_append]
            rw [if_neg ?_]
            rintro ⟨⟨h1, h2, h3⟩, h4⟩
            rw [h4] at hu
            exact absurd hu.2 (by decide)
        | cons u1 a4 =>
          have hu1 : isIdentChar u1 = true := ha1 u1 (by simp)
          refine ⟨⟨p, ["expected let binding"]⟩, ?_⟩
          unfold letCore
          simp only [List.cons_append, List.nil_append]
          rw [if_neg ?_]
          rintro ⟨⟨h1, h2, h3⟩, h4⟩
          rw [identChar_not_space u1 hu1] at h4
          exact absurd h4 (by decide)

theorem pmessage_err_eq {α : Type} (p : Parser α) (m : String) (s : ParseState)
    (e0 : ParseErr) (h : p s = .err e0) :
    pmessage p m s = .err ⟨e0.pos, e0.messages ++ [m]⟩ := by
  unfold pmessage
  rw [h]

theorem invokeHead_fail_atom (a rest : List Char) (p : Nat)
    (ha : ValidIdentL a)
    (hrest : ∀ c, rest.head? = some c →
      isIdentChar c = false ∧ isSpaceChar c = false ∧ c ≠ '.') :
    ∃ er, invokeHead ⟨a ++ rest, p⟩ = .err er := by
  have hid := identifier_eval a rest p ha (fun c hc => (hrest c hc).1)
  have hsp : skipSpaces ⟨rest, p + a.length⟩ = ⟨rest, p + a.length⟩ :=
    skipSpaces_noop _ (fun c hc => (hrest c hc).2.1)
  cases rest with
  | nil =>
    refine ⟨⟨p + a.length, ["expected dot"]⟩, ?_⟩
    unfold invokeHead
    rw [hid]
    simp only []
    rw [hsp]
  | cons c r =>
    refine ⟨⟨p + a.length, ["expected dot"]⟩, ?_⟩
    unfold invokeHead
    rw [hid]
    simp only []
    rw [hsp]
    simp only []
    rw [if_neg (hrest c rfl).2.2]

theorem workerInvokeCore_err_of_head (ribE : Parser Expr) (s : ParseState)
    (e0 : ParseErr) (h : invokeHead s = .err e0) :
    workerInvokeCore ribE s = .err ⟨e0.pos, e0.messages ++ ["Invalid function call"]⟩ := by
  unfold workerInvokeCore
  apply pmessage_err_eq
  show (match invokeHead s with
    | PResult.ok workerVariable s1 =>
      match ribE s1 with
      | PResult.ok c s2 =>
        match c with
        | .call (.function functionName) genericTypeParameter args sourceSpan =>
            PResult.ok ((Expr.invokeWorkerFunctionC (workerVariable.withSourceSpan sourceSpan)
                    functionName genericTypeParameter args).withSourceSpan sourceSpan) s2
        | _ => PResult.err ⟨s2.pos, ["Invalid function call"]⟩
      | PResult.err er => PResult.err er
      | PResult.outOfFuel => PResult.outOfFuel
    | PResult.err er => PResult.err er
    | PResult.outOfFuel => PResult.outOfFuel) = PResult.err e0
  rw [h]

theorem workerInvokeCore_fail_atom (ribE : Parser Expr) (a rest : List Char) (p : Nat)
    (ha : ValidIdentL a)
    (hrest : ∀ c, rest.head? = some c →
      isIdentChar c = false ∧ isSpaceChar c = false ∧ c ≠ '.') :
    ∃ er, workerInvokeCore ribE ⟨a ++ rest, p⟩ = .err er := by
  obtain ⟨e0, h0⟩ := invokeHead_fail_atom a rest p ha hrest
  exact ⟨_, workerInvokeCore_err_of_head ribE _ e0 h0⟩

theorem poption_of_err {α : Type} (p : Parser α) (s : ParseState) (er : ParseErr)
    (h : p s = .err er) : poption p s = .ok none s := by
  unfold poption
  rw [h]

theorem poption_of_ok {α : Type} (p : Parser α) (s s1 : ParseState) (a : α)
    (h : p s = .ok a s1) : poption p s = .ok (some a) s1 := by
  unfold poption
  rw [h]

theorem typeParamP_fail (s : ParseState)
    (h : ∀ c, s.input.head? = some c → c ≠ '[') :
    ∃ er, typeParamP s = .err er := by
  unfold typeParamP
  cases hin : s.input with
  | nil => exact ⟨_, rfl⟩
  | cons c r =>
    refine ⟨⟨s.pos, ["expected type parameter"]⟩, ?_⟩
    simp only []
    rw [if_neg (h c (by rw [hin]; rfl))]

theorem callCore_fail_atom (ribE : Parser Expr) (a rest : List Char) (p : Nat)
    (ha : ValidIdentL a)
    (hrest : ∀ c, rest.head? = some c → isIdentChar c = false ∧ c ≠ '(' ∧ c ≠ '[') :
    ∃ er, callCore ribE ⟨a ++ rest, p⟩ = .err er := by
  have hid := identName_eval a rest p ha (fun c hc => (hrest c hc).1)
  obtain ⟨er0, htp⟩ := typeParamP_fail ⟨rest, p + a.length⟩ (fun c hc => (hrest c hc).2.2)
  have hop := poption_of_err _ _ _ htp
  cases rest with
  | nil =>
    refine ⟨⟨p + a.length, ["expected argument list"]⟩, ?_⟩
    unfold callCore
    rw [hid]
    simp only []
    rw [hop]
  | cons c r =>
    refine ⟨⟨p + a.length, ["expected argument list"]⟩, ?_⟩
    unfold callCore
    rw [hid]
    simp only []
    rw [hop]
    simp only []
    rw [if_neg (hrest c rfl).2.1]

theorem literalP_fail_notquote (s : ParseState)
    (h : ∀ c, s.input.head? = some c → c ≠ '"') :
    ∃ er, literalP s = .err er := by
  unfold literalP
  cases hin : s.input with
  | nil => exact ⟨_, rfl⟩
  | cons c r =>
    refine ⟨⟨s.pos, ["expected string literal"]⟩, ?_⟩
    simp only []
    rw [if_neg (h c (by rw [hin]; rfl))]

theorem literalP_fail_identStart (a rest : List Char) (p : Nat) (ha : ValidIdentL a) :
    ∃ er, literalP ⟨a ++ rest, p⟩ = .err er := by
  apply literalP_fail_notquote
  intro c hc
  cases a with
  | nil => exact absurd ha id
  | cons x a1 =>
    simp at hc
    rw [← hc]
    exact identStart_not_quote x ha.1

theorem porelse_err_left {α : Type} (p q : Parser α) (s : ParseState) (er : ParseErr)
    (h : p s = .err er) : porelse p q s = q s := by
  unfold porelse
  rw [h]

theorem ribExprFuel_ident_eval (fuel : Nat) (hf : 0 < fuel) (a rest : List Char) (p : Nat)
    (ha : ValidIdentL a) (hstop : AtomStop rest) :
    ribExprFuel fuel ⟨a ++ rest, p⟩ =
      .ok (.identifier (String.mk a) none ⟨p, p + a.length⟩) ⟨rest, p + a.length⟩ := by
  obtain ⟨m, rfl⟩ : ∃ m, fuel = m + 1 := ⟨fuel - 1, by omega⟩
  unfold ribExprFuel
  obtain ⟨e1, h1⟩ := letCore_fail_atom (ribExprFuel m) a rest p ha
    (fun c hc => ⟨(hstop c hc).1, (hstop c hc).2.1⟩)
  obtain ⟨e2, h2⟩ := workerInvokeCore_fail_atom (ribExprFuel m) a rest p ha
    (fun c hc => ⟨(hstop c hc).1, (hstop c hc).2.1, (hstop c hc).2.2.1⟩)
  obtain ⟨e3, h3⟩ := callCore_fail_atom (ribExprFuel m) a rest p ha
    (fun c hc => ⟨(hstop c hc).1, (hstop c hc).2.2.2.1, (hstop c hc).2.2.2.2⟩)
  obtain ⟨e4, h4⟩ := literalP_fail_identStart a rest p ha
  rw [porelse_err_left _ _ _ _ h1, porelse_err_left _ _ _ _ h2,
      porelse_err_left _ _ _ _ h3, porelse_err_left _ _ _ _ h4]
  exact identifier_eval a rest p ha (fun c hc => (hstop c hc).1)

theorem atomStop_of_head (c0 : Char) (l : List Char)
    (h : isIdentChar c0 = false ∧ isSpaceChar c0 = false ∧ c0 ≠ '.' ∧ c0 ≠ '(' ∧ c0 ≠ '[') :
    AtomStop (c0 :: l) := by
  intro c hc
  injection hc with h1
  cases h1
  exact h

theorem identStart_not_close (c : Char) (h : isIdentStart c = true) : c ≠ ')' := by
  intro he
  rw [he] at h
  exact absurd h (by decide)

theorem typeParamP_eval (t rest : List Char) (p : Nat) (ht : ValidTypeParamL t) :
    typeParamP ⟨'[' :: (t ++ ']' :: rest), p⟩ =
      .ok ⟨String.mk t⟩ ⟨rest, p + t.length + 2⟩ := by
  have hsw : spanWhile (fun x => !(x == ']')) (t ++ ']' :: rest) = (t, ']' :: rest) :=
    spanWhile_append _ t (']' :: rest)
      (fun x hx => by simp [ht.2 x hx])
      (by intro c hc; injection hc with h1; rw [← h1]; simp)
  have hne : t.isEmpty = false := by
    cases t with
    | nil => exact absurd rfl ht.1
    | cons a b => rfl
  unfold typeParamP
  simp only []
  rw [hsw]
  simp [hne]

theorem commaJoin_cons₂ (a b : List Char) (l : List (List Char)) :
    commaJoin (a :: b :: l) = a ++ ',' :: commaJoin (b :: l) := rfl

theorem commaJoin_cons_head (a : List Char) (l : List (List Char)) (ha : a ≠ []) :
    ∃ x xs, commaJoin (a :: l) = x :: xs ∧ a.head? = some x := by
  cases a with
  | nil => exact absurd rfl ha
  | cons x a1 =>
    cases l with
    | nil => exact ⟨x, a1, rfl, rfl⟩
    | cons b l2 => exact ⟨x, a1 ++ ',' :: commaJoin (b :: l2), rfl, rfl⟩

theorem commaJoin_len (args : List (List Char)) (h : ∀ a ∈ args, ValidIdentL a) :
    args.length ≤ (commaJoin args).length := by
  induction args with
  | nil => simp [commaJoin]
  | cons a l ih =>
    have hane := validIdent_ne_nil a (h a (by simp))
    cases l with
    | nil =>
      cases a with
      | nil => exact absurd rfl hane
      | cons x xs => simp [commaJoin]
    | cons b l2 =>
      rw [commaJoin_cons₂]
      have h1 := ih (fun a2 ha2 => h a2 (by simp [ha2]))
      cases a with
      | nil => exact absurd rfl hane
      | cons x xs =>
        simp [List.length_append] at h1 ⊢
        omega

theorem argsLoop_eval (fuel : Nat) (hf : 0 < fuel) :
    ∀ (args : List (List Char)) (n : Nat) (p : Nat) (after : List Char),
      (∀ a ∈ args, ValidIdentL a) → args ≠ [] → after.head? = some ')' →
      args.length ≤ n →
      argsLoop (ribExprFuel fuel) n ⟨commaJoin args ++ after, p⟩ =
        .ok (argNodes args p) ⟨after, p + (commaJoin args).length⟩ := by
  intro args
  induction args with
  | nil => intro n p after _ hne _ _; exact absurd rfl hne
  | cons a args ih =>
    intro n p after hargs hne hafter hn
    have haid : ValidIdentL a := hargs a (by simp)
    have hn1 : 1 ≤ n := by
      have h0 := hn
      simp at h0
      omega
    obtain ⟨m, rfl⟩ : ∃ m, n = m + 1 := ⟨n - 1, by omega⟩
    cases args with
    | nil =>
      cases after with
      | nil => exact absurd hafter (by simp)
      | cons c0 r0 =>
        have hc0 : c0 = ')' := Option.some.inj hafter
        subst hc0
        show argsLoop (ribExprFuel fuel) (m + 1) ⟨a ++ ')' :: r0, p⟩ = _
        unfold argsLoop
        have hstop : AtomStop (')' :: r0) :=
          atomStop_of_head ')' r0 ⟨by decide, by decide, by decide, by decide, by decide⟩
        rw [ribExprFuel_ident_eval fuel hf a (')' :: r0) p haid hstop]
        simp only []
        rw [skipSpaces_noop ⟨')' :: r0, p + a.length⟩ (fun c hc => (hstop c hc).2.1)]
        simp only []
        rw [if_neg (show ¬(')' = ',') by decide)]
        rfl
    | cons b args2 =>
      have hbid : ValidIdentL b := hargs b (by simp)
      have hbne : b ≠ [] := validIdent_ne_nil b hbid
      rw [commaJoin_cons₂ a b args2]
      simp only [List.append_assoc, List.cons_append]
      unfold argsLoop
      have hstop : AtomStop (',' :: (commaJoin (b :: args2) ++ after)) :=
        atomStop_of_head ',' _ ⟨by decide, by decide, by decide, by decide, by decide⟩
      rw [ribExprFuel_ident_eval fuel hf a _ p haid hstop]
      simp only []
      rw [skipSpaces_noop ⟨',' :: (commaJoin (b :: args2) ++ after), p + a.length⟩
        (fun c hc => (hstop c hc).2.1)]
      simp only [eq_self_iff_true, if_true]
      obtain ⟨x, xs, hcj, hxh⟩ := commaJoin_cons_head b args2 hbne
      have hx : isIdentStart x = true := validIdent_head b hbid x hxh
      have hnos : skipSpaces ⟨commaJoin (b :: args2) ++ after, p + a.length + 1⟩ =
          ⟨commaJoin (b :: args2) ++ after, p + a.length + 1⟩ := by
        apply skipSpaces_noop
        intro c hc
        rw [hcj] at hc
        simp at hc
        rw [← hc]
        exact identStart_not_space x hx
      rw [hnos]
      rw [ih m (p + a.length + 1) after (fun a2 ha2 => hargs a2 (by simp [ha2]))
        (by simp) hafter (by simp only [List.length_cons] at hn ⊢; omega)]
      simp only []
      have harith : p + (a ++ ',' :: commaJoin (b :: args2)).length =
          p + a.length + 1 + (commaJoin (b :: args2)).length := by
        simp only [List.length_append, List.length_cons]
        omega
      rw [harith]
      rfl

theorem callCore_eval_core (fuel : Nat) (hf : 0 < fuel) (s : ParseState)
    (name : String) (g : Option GenericTypeParameter) (args : List (List Char))
    (after : List Char) (q : Nat)
    (hargs : ∀ a ∈ args, ValidIdentL a)
    (s1 : ParseState)
    (h1 : identName s = .ok name s1)
    (h2 : poption typeParamP s1 = .ok g ⟨'(' :: (commaJoin args ++ ')' :: after), q⟩) :
    callCore (ribExprFuel fuel) s =
      .ok (.call (.function name) g (argNodes args (q + 1))
            ⟨s.pos, q + 1 + (commaJoin args).length + 1⟩)
        ⟨after, q + 1 + (commaJoin args).length + 1⟩ := by
  unfold callCore
  rw [h1]
  simp only []
  rw [h2]
  simp +decide only [if_true]
  cases hargs0 : args with
  | nil =>
    simp only [commaJoin, List.nil_append]
    rw [skipSpaces_noop ⟨')' :: after, q + 1⟩
      (by intro c hc; injection hc with hce; rw [← hce]; decide)]
    simp +decide only [if_true, List.head?_cons, List.tail_cons]
    simp [argNodes, commaJoin]
  | cons a0 args1 =>
    have ha0 : ValidIdentL a0 := by
      rw [hargs0] at hargs
      exact hargs a0 (by simp)
    obtain ⟨x, xs, hcj, hxh⟩ :=
      commaJoin_cons_head a0 args1 (validIdent_ne_nil a0 ha0)
    have hx : isIdentStart x = true := validIdent_head a0 ha0 x hxh
    have hnos : skipSpaces ⟨commaJoin (a0 :: args1) ++ ')' :: after, q + 1⟩ =
        ⟨commaJoin (a0 :: args1) ++ ')' :: after, q + 1⟩ := by
      apply skipSpaces_noop
      intro c hc
      rw [hcj] at hc
      simp at hc
      rw [← hc]
      exact identStart_not_space x hx
    rw [hnos]
    simp only []
    have hhd : (commaJoin (a0 :: args1) ++ ')' :: after).head? = some x := by
      rw [hcj]
      rfl
    rw [if_neg (by
      rw [hhd]
      intro hcc
      injection hcc with hce
      exact identStart_not_close x hx hce)]
    have hlen : (a0 :: args1).length ≤ (commaJoin (a0 :: args1) ++ ')' :: after).length + 1 := by
      have h3 := commaJoin_len (a0 :: args1) (by rw [hargs0] at hargs; exact hargs)
      simp only [List.length_cons, List.length_append] at h3 ⊢
      omega
    rw [argsLoop_eval fuel hf (a0 :: args1) _ (q + 1) (')' :: after)
      (by rw [hargs0] at hargs; exact hargs) (by simp) rfl hlen]
    simp +decide only [if_true, List.head?_cons, List.tail_cons]

theorem callCore_eval (fuel : Nat) (hf : 0 < fuel)
    (f : List Char) (tp : Option (List Char)) (args : List (List Char))
    (after : List Char) (p : Nat)
    (hfi : ValidIdentL f) (htp : ValidTypeParamO tp)
    (hargs : ∀ a ∈ args, ValidIdentL a) :
    callCore (ribExprFuel fuel)
        ⟨f ++ (typeParamText tp ++ '(' :: (commaJoin args ++ ')' :: after)), p⟩ =
      .ok (.call (.function (String.mk f)) (typeParamVal tp)
            (argNodes args (p + f.length + (typeParamText tp).length + 1))
            ⟨p, p + f.length + (typeParamText tp).length + 1 + (commaJoin args).length + 1⟩)
        ⟨after, p + f.length + (typeParamText tp).length + 1 + (commaJoin args).length + 1⟩ := by
  cases tp with
  | none =>
    simp only [typeParamText, typeParamVal, List.nil_append, List.length_nil, Nat.add_zero]
    have hid := identName_eval f ('(' :: (commaJoin args ++ ')' :: after)) p hfi
      (by intro c hc; injection hc with hce; rw [← hce]; decide)
    obtain ⟨er0, htpf⟩ := typeParamP_fail ⟨'(' :: (commaJoin args ++ ')' :: after), p + f.length⟩
      (by intro c hc; injection hc with hce; rw [← hce]; decide)
    exact callCore_eval_core fuel hf _ (String.mk f) none args after (p + f.length) hargs
      _ hid (poption_of_err _ _ _ htpf)
  | some t =>
    have hshape : f ++ (typeParamText (some t) ++ '(' :: (commaJoin args ++ ')' :: after)) =
        f ++ ('[' :: (t ++ ']' :: ('(' :: (commaJoin args ++ ')' :: after)))) := by
      simp [typeParamText]
    rw [hshape]
    have hid := identName_eval f ('[' :: (t ++ ']' :: ('(' :: (commaJoin args ++ ')' :: after)))) p hfi
      (by intro c hc; injection hc with hce; rw [← hce]; decide)
    have htpe := typeParamP_eval t ('(' :: (commaJoin args ++ ')' :: after)) (p + f.length) htp
    have hres := callCore_eval_core fuel hf
      ⟨f ++ ('[' :: (t ++ ']' :: ('(' :: (commaJoin args ++ ')' :: after)))), p⟩
      (String.mk f) (some ⟨String.mk t⟩) args after (p + f.length + t.length + 2) hargs
      _ hid (poption_of_ok _ _ _ _ htpe)
    rw [hres]
    have hlen : (typeParamText (some t)).length = t.length + 2 := by
      simp [typeParamText]
    rw [hlen]
    simp only [typeParamVal]
    have e1 : p + f.length + (t.length + 2) + 1 = p + f.length + t.length + 2 + 1 := by
      omega
    rw [e1]

theorem porelse_ok_left {α : Type} (p q : Parser α) (s : ParseState) (a : α)
    (s1 : ParseState) (h : p s = .ok a s1) : porelse p q s = .ok a s1 := by
  unfold porelse
  rw [h]

theorem typeParamText_head (tp : Option (List Char)) (X : List Char) :
    (typeParamText tp ++ '(' :: X).head? = some '(' ∨
    (typeParamText tp ++ '(' :: X).head? = some '[' := by
  cases tp with
  | none => exact Or.inl rfl
  | some t => exact Or.inr rfl

theorem ribExprFuel_call_eval (fuel : Nat) (hf : 2 ≤ fuel)
    (f : List Char) (tp : Option (List Char)) (args : List (List Char))
    (after : List Char) (p : Nat)
    (hfi : ValidIdentL f) (htp : ValidTypeParamO tp)
    (hargs : ∀ a ∈ args, ValidIdentL a) :
    ribExprFuel fuel ⟨f ++ (typeParamText tp ++ '(' :: (commaJoin args ++ ')' :: after)), p⟩ =
      .ok (.call (.function (String.mk f)) (typeParamVal tp)
            (argNodes args (p + f.length + (typeParamText tp).length + 1))
            ⟨p, p + f.length + (typeParamText tp).length + 1 + (commaJoin args).length + 1⟩)
        ⟨after, p + f.length + (typeParamText tp).length + 1 + (commaJoin args).length + 1⟩ := by
  obtain ⟨m, rfl⟩ : ∃ m, fuel = m + 1 := ⟨fuel - 1, by omega⟩
  have hm : 0 < m := by omega
  have hrest : ∀ c,
      (typeParamText tp ++ '(' :: (commaJoin args ++ ')' :: after)).head? = some c →
      isIdentChar c = false ∧ isSpaceChar c = false ∧ c ≠ '.' := by
    intro c hc
    rcases typeParamText_head tp (commaJoin args ++ ')' :: after) with h | h
    · rw [h] at hc
      injection hc with hce
      subst hce
      exact ⟨by decide, by decide, by decide⟩
    · rw [h] at hc
      injection hc with hce
      subst hce
      exact ⟨by decide, by decide, by decide⟩
  unfold ribExprFuel
  obtain ⟨e1, h1⟩ := letCore_fail_atom (ribExprFuel m) f
    (typeParamText tp ++ '(' :: (commaJoin args ++ ')' :: after)) p hfi
    (fun c hc => ⟨(hrest c hc).1, (hrest c hc).2.1⟩)
  obtain ⟨e2, h2⟩ := workerInvokeCore_fail_atom (ribExprFuel m) f
    (typeParamText tp ++ '(' :: (commaJoin args ++ ')' :: after)) p hfi hrest
  rw [porelse_err_left _ _ _ _ h1, porelse_err_left _ _ _ _ h2]
  exact porelse_ok_left _ _ _ _ _ (callCore_eval m hm f tp args after p hfi htp hargs)

theorem invokeHead_eval (w rest : List Char) (p : Nat) (hw : ValidIdentL w) :
    invokeHead ⟨w ++ '.' :: rest, p⟩ =
      .ok (.identifier (String.mk w) none ⟨p, p + w.length⟩) ⟨rest, p + w.length + 1⟩ := by
  unfold invokeHead
  rw [identifier_eval w ('.' :: rest) p hw
    (by intro c hc; injection hc with hce; rw [← hce]; decide)]
  simp only []
  rw [skipSpaces_noop ⟨'.' :: rest, p + w.length⟩
    (by intro c hc; injection hc with hce; rw [← hce]; decide)]
  simp +decide only [if_true]

theorem workerInvokeCore_eval (ribE : Parser Expr) (s : ParseState) (wv : Expr)
    (s1 : ParseState) (fn : String) (g : Option GenericTypeParameter)
    (args : List Expr) (sp : SourceSpan) (s2 : ParseState)
    (h1 : invokeHead s = .ok wv s1)
    (h2 : ribE s1 = .ok (Expr.call (.function fn) g args sp) s2) :
    workerInvokeCore ribE s =
      .ok ((Expr.invokeWorkerFunctionC (wv.withSourceSpan sp) fn g args).withSourceSpan sp)
        s2 := by
  unfold workerInvokeCore pmessage
  simp only []
  rw [h1]
  simp only []
  rw [h2]

theorem stripSpans_withSourceSpan (e : Expr) (sp : SourceSpan) :
    (e.withSourceSpan sp).stripSpans = e.stripSpans := by
  cases e <;> rfl

theorem stripSpansList_argNodes (l : List (List Char)) (p : Nat) :
    Expr.stripSpansList (argNodes l p) =
      l.map (fun a => Expr.identifierGlobal (String.mk a)) := by
  induction l generalizing p with
  | nil => rfl
  | cons a l ih =>
    simp [argNodes, Expr.stripSpansList, Expr.stripSpans, Expr.identifierGlobal, ih]

/-- Claim C1: for every valid identifier `w`, function name `f`, optional
generic type parameter text `t` and argument list of identifier
expressions `a1..an`, parsing `w.f(a1,...,an)` with the
`worker_function_invoke` production succeeds, consumes the whole text and
yields `InvokeWorkerFunction(Identifier(w), f, None, [a1,...,an])`
(compared modulo source spans, as the Rust `PartialEq` does); with the
optional `[t]` present the same node carries
`generic_type_parameter = Some(t)`; the empty argument list `w.f()`
yields the empty argument vector. -/
theorem worker_function_invoke_shapes (w f : List Char) (tp : Option (List Char))
    (args : List (List Char)) (p : Nat)
    (hw : ValidIdentL w) (hf : ValidIdentL f) (htp : ValidTypeParamO tp)
    (hargs : ∀ a ∈ args, ValidIdentL a) :
    resultView (workerFunctionInvoke
        ⟨w ++ '.' :: (f ++ (typeParamText tp ++ '(' :: (commaJoin args ++ [')']))), p⟩) =
      some (Expr.invokeWorkerFunctionC (Expr.identifierGlobal (String.mk w)) (String.mk f)
        (typeParamVal tp) (args.map fun a => Expr.identifierGlobal (String.mk a)), []) := by
  have hih := invokeHead_eval w (f ++ (typeParamText tp ++ '(' :: (commaJoin args ++ [')']))) p hw
  have hlen1 : 1 ≤ (f ++ (typeParamText tp ++ '(' :: (commaJoin args ++ [')']))).length := by
    cases f with
    | nil => exact absurd hf id
    | cons x f1 => simp
  have hrib : ribExpr
      ⟨f ++ (typeParamText tp ++ '(' :: (commaJoin args ++ [')'])), p + w.length + 1⟩ =
      .ok (.call (.function (String.mk f)) (typeParamVal tp)
            (argNodes args (p + w.length + 1 + f.length + (typeParamText tp).length + 1))
            ⟨p + w.length + 1, p + w.length + 1 + f.length + (typeParamText tp).length + 1
              + (commaJoin args).length + 1⟩)
        ⟨[], p + w.length + 1 + f.length + (typeParamText tp).length + 1
              + (commaJoin args).length + 1⟩ :=
    ribExprFuel_call_eval
      ((f ++ (typeParamText tp ++ '(' :: (commaJoin args ++ [')']))).length + 1)
      (by omega) f tp args [] (p + w.length + 1) hf htp hargs
  rw [show workerFunctionInvoke = workerInvokeCore ribExpr from rfl]
  rw [workerInvokeCore_eval ribExpr _ _ _ _ _ _ _ _ hih hrib]
  simp [resultView, stripSpans_withSourceSpan, Expr.invokeWorkerFunctionC, Expr.stripSpans,
    Expr.withSourceSpan, stripSpansList_argNodes, Expr.identifierGlobal]

theorem worker_function_invoke_shapes_witness :
    resultView (workerFunctionInvoke ⟨"worker.function-name[foo](foo,bar)".toList, 0⟩) =
      some (Expr.invokeWorkerFunctionC (Expr.identifierGlobal "worker") "function-name"
        (some ⟨"foo"⟩) [Expr.identifierGlobal "foo", Expr.identifierGlobal "bar"], []) ∧
    resultView (workerFunctionInvoke ⟨"w.f()".toList, 0⟩) =
      some (Expr.invokeWorkerFunctionC (Expr.identifierGlobal "w") "f" none [], []) := by
  constructor
  · exact worker_function_invoke_shapes "worker".toList "function-name".toList
      (some "foo".toList) ["foo".toList, "bar".toList] 0
      (by decide) (by decide) (by decide) (by decide)
  · exact worker_function_invoke_shapes "w".toList "f".toList none [] 0
      (by decide) (by decide) trivial (by decide)

/-! ## Shift invariance: positions shift additively, values shift spans -/

theorem skipSpaces_shift (d : Nat) (inp : List Char) (q : Nat) :
    skipSpaces ⟨inp, q + d⟩ = shiftState d (skipSpaces ⟨inp, q⟩) := by
  simp [skipSpaces, shiftState]
  omega

theorem identName_shift (d : Nat) (inp : List Char) (q : Nat) :
    identName ⟨inp, q + d⟩ = shiftResultWith id d (identName ⟨inp, q⟩) := by
  unfold identName
  cases inp with
  | nil => rfl
  | cons c r =>
    simp only []
    by_cases hc : isIdentStart c = true
    · rw [if_pos hc, if_pos hc]
      simp [shiftResultWith, shiftState]
      omega
    · rw [if_neg hc, if_neg hc]
      rfl

theorem identifier_shift (d : Nat) (inp : List Char) (q : Nat) :
    identifier ⟨inp, q + d⟩ = shiftResultWith (shiftExpr d) d (identifier ⟨inp, q⟩) := by
  unfold identifier
  rw [identName_shift d inp q]
  cases hn : identName ⟨inp, q⟩ with
  | ok n s1 => rfl
  | err er => rfl
  | outOfFuel => rfl

theorem literalP_shift (d : Nat) (inp : List Char) (q : Nat) :
    literalP ⟨inp, q + d⟩ = shiftResultWith (shiftExpr d) d (literalP ⟨inp, q⟩) := by
  unfold literalP
  cases inp with
  | nil => rfl
  | cons c r =>
    simp only []
    by_cases hc : c = '"'
    · rw [if_pos hc, if_pos hc]
      cases hpr : (spanWhile (fun x => !(x == '"')) r).2 with
      | nil => rfl
      | cons c2 r2 =>
        simp only []
        by_cases hc2 : c2 = '"'
        · rw [if_pos hc2, if_pos hc2]
          simp [shiftResultWith, shiftState, shiftExpr, shiftSpan]
          omega
        · rw [if_neg hc2, if_neg hc2]
          rfl
    · rw [if_neg hc, if_neg hc]
      rfl

theorem typeParamP_shift (d : Nat) (inp : List Char) (q : Nat) :
    typeParamP ⟨inp, q + d⟩ = shiftResultWith id d (typeParamP ⟨inp, q⟩) := by
  unfold typeParamP
  cases inp with
  | nil => rfl
  | cons c r =>
    simp only []
    by_cases hc : c = '['
    · rw [if_pos hc, if_pos hc]
      cases hpr : (spanWhile (fun x => !(x == ']')) r).2 with
      | nil => rfl
      | cons c2 r2 =>
        simp only []
        by_cases hc2 : c2 = ']'
        · rw [if_pos hc2, if_pos hc2]
          by_cases he : (spanWhile (fun x => !(x == ']')) r).1.isEmpty = true
          · rw [if_pos he, if_pos he]
            rfl
          · rw [if_neg he, if_neg he]
            simp [shiftResultWith, shiftState]
            omega
        · rw [if_neg hc2, if_neg hc2]
          rfl
    · rw [if_neg hc, if_neg hc]
      rfl

theorem poptionTP_shift (d : Nat) (inp : List Char) (q : Nat) :
    poption typeParamP ⟨inp, q + d⟩ =
      shiftResultWith id d (poption typeParamP ⟨inp, q⟩) := by
  unfold poption
  rw [typeParamP_shift d inp q]
  cases ht : typeParamP ⟨inp, q⟩ with
  | ok g s1 => rfl
  | err er => rfl
  | outOfFuel => rfl

theorem argsLoop_shift (ribE : Parser Expr) (d : Nat)
    (hr : ∀ inp q, ribE ⟨inp, q + d⟩ = shiftResultWith (shiftExpr d) d (ribE ⟨inp, q⟩)) :
    ∀ n inp q, argsLoop ribE n ⟨inp, q + d⟩ =
      shiftResultWith (shiftList d) d (argsLoop ribE n ⟨inp, q⟩) := by
  intro n
  induction n with
  | zero => intro inp q; rfl
  | succ m ih =>
    intro inp q
    unfold argsLoop
    rw [hr inp q]
    cases hrr : ribE ⟨inp, q⟩ with
    | ok e t1 =>
      obtain ⟨ti, tq⟩ := t1
      simp only [shiftResultWith, shiftState]
      rw [skipSpaces_shift d ti tq]
      cases hu : skipSpaces ⟨ti, tq⟩ with
      | mk ui uq =>
        simp only [shiftState]
        cases ui with
        | nil => rfl
        | cons c r =>
          simp only []
          by_cases hcm : c = ','
          · rw [if_pos hcm, if_pos hcm]
            have e1 : uq + d + 1 = uq + 1 + d := by omega
            rw [e1]
            rw [skipSpaces_shift d r (uq + 1)]
            cases hz : skipSpaces ⟨r, uq + 1⟩ with
            | mk zi zq =>
              simp only [shiftState]
              rw [ih zi zq]
              cases ha : argsLoop ribE m ⟨zi, zq⟩ with
              | ok es s4 => rfl
              | err er => rfl
              | outOfFuel => rfl
          · rw [if_neg hcm, if_neg hcm]
            rfl
    | err er => rfl
    | outOfFuel => rfl

theorem callCore_shift (ribE : Parser Expr) (d : Nat)
    (hr : ∀ inp q, ribE ⟨inp, q + d⟩ = shiftResultWith (shiftExpr d) d (ribE ⟨inp, q⟩))
    (inp : List Char) (q : Nat) :
    callCore ribE ⟨inp, q + d⟩ =
      shiftResultWith (shiftExpr d) d (callCore ribE ⟨inp, q⟩) := by
  unfold callCore
  rw [identName_shift d inp q]
  cases hn : identName ⟨inp, q⟩ with
  | ok name s1 =>
    obtain ⟨si, sq⟩ := s1
    simp only [shiftResultWith, shiftState, id]
    rw [poptionTP_shift d si sq]
    cases hp : poption typeParamP ⟨si, sq⟩ with
    | ok g s2 =>
      obtain ⟨vi, vq⟩ := s2
      simp only [shiftResultWith, shiftState, id]
      cases vi with
      | nil => rfl
      | cons c r =>
        simp only []
        by_cases hop : c = '('
        · rw [if_pos hop, if_pos hop]
          have e1 : vq + d + 1 = vq + 1 + d := by omega
          rw [e1]
          rw [skipSpaces_shift d r (vq + 1)]
          cases hu : skipSpaces ⟨r, vq + 1⟩ with
          | mk ui uq =>
            simp only [shiftState]
            by_cases hcl : ui.head? = some ')'
            · rw [if_pos hcl, if_pos hcl]
              simp [shiftResultWith, shiftState, shiftExpr, shiftSpan, shiftList] <;> omega
            · rw [if_neg hcl, if_neg hcl]
              rw [argsLoop_shift ribE d hr (ui.length + 1) ui uq]
              cases ha : argsLoop ribE (ui.length + 1) ⟨ui, uq⟩ with
              | ok args s4 =>
                obtain ⟨zi, zq⟩ := s4
                simp only [shiftResultWith, shiftState]
                by_cases hcl2 : zi.head? = some ')'
                · rw [if_pos hcl2, if_pos hcl2]
                  simp [shiftResultWith, shiftState, shiftExpr, shiftSpan] <;> omega
                · rw [if_neg hcl2, if_neg hcl2]
              | err er => rfl
              | outOfFuel => rfl
        · rw [if_neg hop, if_neg hop]
    | err er => rfl
    | outOfFuel => rfl
  | err er => rfl
  | outOfFuel => rfl

theorem letCore_shift (ribE : Parser Expr) (d : Nat)
    (hr : ∀ inp q, ribE ⟨inp, q + d⟩ = shiftResultWith (shiftExpr d) d (ribE ⟨inp, q⟩))
    (inp : List Char) (q : Nat) :
    letCore ribE ⟨inp, q + d⟩ =
      shiftResultWith (shiftExpr d) d (letCore ribE ⟨inp, q⟩) := by
  unfold letCore
  cases inp with
  | nil => rfl
  | cons c1 r1 =>
    cases r1 with
    | nil => rfl
    | cons c2 r2 =>
      cases r2 with
      | nil => rfl
      | cons c3 r3 =>
        cases r3 with
        | nil => rfl
        | cons c4 r =>
          simp only []
          by_cases hkw : (c1 = 'l' ∧ c2 = 'e' ∧ c3 = 't') ∧ isSpaceChar c4 = true
          · rw [if_pos hkw, if_pos hkw]
            have e1 : q + d + 3 = q + 3 + d := by omega
            rw [e1]
            rw [skipSpaces_shift d (c4 :: r) (q + 3)]
            cases hu : skipSpaces ⟨c4 :: r, q + 3⟩ with
            | mk ui uq =>
              simp only [shiftState]
              rw [identName_shift d ui uq]
              cases hn : identName ⟨ui, uq⟩ with
              | ok name s2 =>
                obtain ⟨si, sq⟩ := s2
                simp only [shiftResultWith, shiftState, id]
                rw [skipSpaces_shift d si sq]
                cases hv : skipSpaces ⟨si, sq⟩ with
                | mk vi vq =>
                  simp only [shiftState]
                  cases vi with
                  | nil => rfl
                  | cons ce re =>
                    simp only []
                    by_cases he : ce = '='
                    · rw [if_pos he, if_pos he]
                      have e2 : vq + d + 1 = vq + 1 + d := by omega
                      rw [e2]
                      rw [skipSpaces_shift d re (vq + 1)]
                      cases hz : skipSpaces ⟨re, vq + 1⟩ with
                      | mk zi zq =>
                        simp only [shiftState]
                        rw [hr zi zq]
                        cases hb : ribE ⟨zi, zq⟩ with
                        | ok b s5 =>
                          simp [shiftResultWith, shiftState, shiftExpr, shiftSpan] <;> omega
                        | err er => rfl
                        | outOfFuel => rfl
                    · rw [if_neg he, if_neg he]
              | err er => rfl
              | outOfFuel => rfl
          · rw [if_neg hkw, if_neg hkw]
            rfl

theorem invokeHead_shift (d : Nat) (inp : List Char) (q : Nat) :
    invokeHead ⟨inp, q + d⟩ =
      shiftResultWith (shiftExpr d) d (invokeHead ⟨inp, q⟩) := by
  unfold invokeHead
  rw [identifier_shift d inp q]
  cases hi : identifier ⟨inp, q⟩ with
  | ok wv s1 =>
    obtain ⟨si, sq⟩ := s1
    simp only [shiftResultWith, shiftState]
    rw [skipSpaces_shift d si sq]
    cases hu : skipSpaces ⟨si, sq⟩ with
    | mk ui uq =>
      simp only [shiftState]
      cases ui with
      | nil => rfl
      | cons c r =>
        simp only []
        by_cases hc : c = '.'
        · rw [if_pos hc, if_pos hc]
          simp [shiftResultWith, shiftState] <;> omega
        · rw [if_neg hc, if_neg hc]
  | err er => rfl
  | outOfFuel => rfl

theorem shiftExpr_withSourceSpan (d : Nat) (e : Expr) (sp : SourceSpan) :
    shiftExpr d (e.withSourceSpan sp) = (shiftExpr d e).withSourceSpan (shiftSpan d sp) := by
  cases e <;> rfl

theorem workerInvokeCore_shift (ribE : Parser Expr) (d : Nat)
    (hr : ∀ inp q, ribE ⟨inp, q + d⟩ = shiftResultWith (shiftExpr d) d (ribE ⟨inp, q⟩))
    (inp : List Char) (q : Nat) :
    workerInvokeCore ribE ⟨inp, q + d⟩ =
      shiftResultWith (shiftExpr d) d (workerInvokeCore ribE ⟨inp, q⟩) := by
  unfold workerInvokeCore pmessage
  simp only []
  rw [invokeHead_shift d inp q]
  cases hi : invokeHead ⟨inp, q⟩ with
  | ok wv s1 =>
    obtain ⟨si, sq⟩ := s1
    simp only [shiftResultWith, shiftState]
    rw [hr si sq]
    cases hrr : ribE ⟨si, sq⟩ with
    | ok c s2 =>
      cases c with
      | call ct g args sp =>
        cases ct with
        | function fn =>
          simp only [shiftResultWith, shiftState, shiftExpr, shiftSpan, shiftList,
            Expr.invokeWorkerFunctionC, shiftExpr_withSourceSpan]
          rfl
        | otherKind t => rfl
      | identifier n sc sp => rfl
      | literal v sp => rfl
      | letBinding n b th sp => rfl
      | exprBlock es sp => rfl
      | invokeWorkerFunction ww fn g args sp => rfl
    | err er => rfl
    | outOfFuel => rfl
  | err er => rfl
  | outOfFuel => rfl

theorem ribExprFuel_shift (d : Nat) :
    ∀ fuel inp q, ribExprFuel fuel ⟨inp, q + d⟩ =
      shiftResultWith (shiftExpr d) d (ribExprFuel fuel ⟨inp, q⟩) := by
  intro fuel
  induction fuel with
  | zero => intro inp q; rfl
  | succ m ih =>
    intro inp q
    unfold ribExprFuel
    unfold porelse
    rw [letCore_shift (ribExprFuel m) d ih inp q]
    cases h1 : letCore (ribExprFuel m) ⟨inp, q⟩ with
    | ok e s1 => rfl
    | err er =>
      simp only [shiftResultWith]
      rw [workerInvokeCore_shift (ribExprFuel m) d ih inp q]
      cases h2 : workerInvokeCore (ribExprFuel m) ⟨inp, q⟩ with
      | ok e s1 => rfl
      | err er2 =>
        simp only [shiftResultWith]
        rw [callCore_shift (ribExprFuel m) d ih inp q]
        cases h3 : callCore (ribExprFuel m) ⟨inp, q⟩ with
        | ok e s1 => rfl
        | err er3 =>
          simp only [shiftResultWith]
          rw [literalP_shift d inp q]
          cases h4 : literalP ⟨inp, q⟩ with
          | ok e s1 => rfl
          | err er4 =>
            simp only [shiftResultWith]
            exact identifier_shift d inp q
          | outOfFuel => rfl
        | outOfFuel => rfl
      | outOfFuel => rfl
    | outOfFuel => rfl

theorem ribExpr_shift (d : Nat) (inp : List Char) (q : Nat) :
    ribExpr ⟨inp, q + d⟩ = shiftResultWith (shiftExpr d) d (ribExpr ⟨inp, q⟩) :=
  ribExprFuel_shift d (inp.length + 1) inp q

theorem space_not_identChar (c : Char) (h : isSpaceChar c = true) :
    isIdentChar c = false := by
  cases hi : isIdentChar c
  · rfl
  · rw [identChar_not_space c hi] at h
    exact absurd h (by simp)

mutual
theorem stripSpans_shiftExpr (d : Nat) :
    (e : Expr) → (shiftExpr d e).stripSpans = e.stripSpans
  | .identifier n sc sp => rfl
  | .literal v sp => rfl
  | .letBinding n b th sp => by
      simp only [shiftExpr, Expr.stripSpans, stripSpans_shiftExpr d b]
  | .exprBlock es sp => by
      simp only [shiftExpr, Expr.stripSpans, stripSpansList_shiftList d es]
  | .call ct g as sp => by
      simp only [shiftExpr, Expr.stripSpans, stripSpansList_shiftList d as]
  | .invokeWorkerFunction w fn g as sp => by
      simp only [shiftExpr, Expr.stripSpans, stripSpans_shiftExpr d w,
        stripSpansList_shiftList d as]

theorem stripSpansList_shiftList (d : Nat) :
    (l : List Expr) → Expr.stripSpansList (shiftList d l) = Expr.stripSpansList l
  | [] => rfl
  | e :: es => by
      simp only [shiftList, Expr.stripSpansList, stripSpans_shiftExpr d e,
        stripSpansList_shiftList d es]
end

theorem workerInvokeCore_view_shift (s s' : ParseState) (wv : Expr)
    (i : List Char) (q' d : Nat)
    (h1 : invokeHead s = .ok wv ⟨i, q' + d⟩)
    (h2 : invokeHead s' = .ok wv ⟨i, q'⟩) :
    resultView (workerInvokeCore ribExpr s) =
      resultView (workerInvokeCore ribExpr s') := by
  unfold workerInvokeCore pmessage
  simp only []
  rw [h1, h2]
  simp only []
  rw [ribExpr_shift d i q']
  cases hrr : ribExpr ⟨i, q'⟩ with
  | ok c s2 =>
    simp only [shiftResultWith]
    cases c with
    | call ct g args sp =>
      cases ct with
      | function fn =>
        simp [resultView, shiftState, shiftExpr, shiftSpan, Expr.invokeWorkerFunctionC,
          stripSpans_withSourceSpan, Expr.stripSpans, stripSpansList_shiftList,
          stripSpans_shiftExpr]
      | otherKind t => rfl
    | identifier n sc sp => rfl
    | literal v sp => rfl
    | letBinding n b th sp => rfl
    | exprBlock es sp => rfl
    | invokeWorkerFunction ww fn g args sp => rfl
  | err er => rfl
  | outOfFuel => rfl

/-- Claim C10: whitespace between the worker identifier and the dot is
skipped: parsing an invocation whose leading identifier is followed by
whitespace and then the dot yields the same outcome — the same AST modulo
source spans, the same residual input, and failure exactly when the
no-whitespace variant fails — as parsing the same text with the
whitespace removed. -/
theorem whitespace_before_dot_irrelevant (w ws rest : List Char) (p : Nat)
    (hw : ValidIdentL w) (hws : ∀ c ∈ ws, isSpaceChar c = true) :
    resultView (workerFunctionInvoke ⟨w ++ (ws ++ '.' :: rest), p⟩) =
      resultView (workerFunctionInvoke ⟨w ++ '.' :: rest, p⟩) := by
  have hwsid : ∀ c, (ws ++ '.' :: rest).head? = some c → isIdentChar c = false := by
    intro c hc
    cases ws with
    | nil =>
      injection hc with h1
      rw [← h1]
      decide
    | cons c0 ws1 =>
      injection hc with h1
      rw [← h1]
      exact space_not_identChar c0 (hws c0 (by simp))
  have hL : invokeHead ⟨w ++ (ws ++ '.' :: rest), p⟩ =
      .ok (.identifier (String.mk w) none ⟨p, p + w.length⟩)
        ⟨rest, p + w.length + ws.length + 1⟩ := by
    unfold invokeHead
    rw [identifier_eval w (ws ++ '.' :: rest) p hw hwsid]
    simp only []
    rw [skipSpaces_run ws ('.' :: rest) (p + w.length) hws
      (by intro c hc; injection hc with h1; rw [← h1]; decide)]
    simp +decide only [if_true]
  have e1 : p + w.length + ws.length + 1 = p + w.length + 1 + ws.length := by
    omega
  rw [e1] at hL
  exact workerInvokeCore_view_shift _ _ _ rest (p + w.length + 1) ws.length hL
    (invokeHead_eval w rest p hw)

theorem whitespace_before_dot_irrelevant_witness :
    resultView (workerFunctionInvoke
        ⟨"w".toList ++ (" \t ".toList ++ '.' :: "f(a)".toList), 0⟩) =
      resultView (workerFunctionInvoke ⟨"w".toList ++ '.' :: "f(a)".toList, 0⟩) :=
  whitespace_before_dot_irrelevant "w".toList " \t ".toList "f(a)".toList 0
    (by decide) (by decide)

end Golem
